import Mathlib

/-!
Verification of the coroutine-based job scheduler of the YT repository,
embedded shallowly from src/Internal/JobManagerImpl.cpp.

Tasks are identified by natural numbers (a task id stands for a
std::coroutine_handle).  The static attributes of a task promise
(JobPromiseBaseData: m_OwningThread, m_IsMainThread, whether
m_IncrementCounters is attached to the tracking block under study,
m_ReturnVoid) are collected in a JobEnv.  The dynamic scheduler state
(the mailbox matrix m_Blocks, the main-thread queue m_MainThreadJobs,
the tracking block counters, the per-task promise fields that change,
and the thread-local g_NextJobID of every thread) is a Sched record.

Machine integers of the source are modelled as Nat; the only modular
arithmetic in the scheduler is the explicit % NumThreads of the
round-robin counter, which is kept verbatim.  Atomic exchanges become
plain state updates: the model is an interleaving semantics where each
embedded operation is one atomic step, which covers every linearization
the lock-free source can produce for the properties proved here.
-/

namespace YT

/-- Static per-task promise attributes and the configuration constants.
NumThreads is the thread-pool size N; MaxTask bounds the task-id
universe; m_IncrementCounters records whether the task carries a
pointer to the tracking block under study (the completion sink). -/
structure JobEnv where
  NumThreads : ℕ
  MaxTask : ℕ
  m_OwningThread : ℕ → ℕ
  m_IsMainThread : ℕ → Bool
  m_IncrementCounters : ℕ → Bool
  m_ReturnVoid : ℕ → Bool

/-- Dynamic scheduler state.  m_Blocks is the mailbox matrix indexed
[target][source]; m_MainThreadJobs the mutex-protected FIFO;
m_LocalCount / m_RemoteCount the tracking block of the Job List under
study; m_ResumeHandle the per-task continuation field of the promise;
pending the number of resumes a task still needs before coro.done();
g_NextJobID the thread-local round-robin counter of every thread.
incr, resumeLog and peeks are ghost instrumentation: incr counts the
completion-counter increments performed for each task, resumeLog
records (thread, task) for every coro.resume() call, peeks counts the
check loads ProcessJobList performs on matrix cells. -/
structure Sched where
  m_Blocks : ℕ → ℕ → Option ℕ
  m_MainThreadJobs : List ℕ
  m_LocalCount : ℕ → ℕ
  m_RemoteCount : ℕ → ℕ
  m_ResumeHandle : ℕ → Option ℕ
  pending : ℕ → ℕ
  doneF : ℕ → Bool
  destroyedF : ℕ → Bool
  g_NextJobID : ℕ → ℕ
  incr : ℕ → ℕ
  resumeLog : List (ℕ × ℕ)
  peeks : ℕ

/-- Pointwise update of a one-argument function. -/
def updFn (f : ℕ → α) (i : ℕ) (v : α) : ℕ → α :=
  fun x => if x = i then v else f x

/-- Pointwise update of one mailbox cell. -/
def updCell (f : ℕ → ℕ → Option ℕ) (a b : ℕ) (v : Option ℕ) : ℕ → ℕ → Option ℕ :=
  fun x y => if x = a ∧ y = b then v else f x y

/-- The coro.resume() line of JobManager::ResumeCoroutine: the task
advances to its next suspension point; it is done when no pending
resumes remain.  The ghost resumeLog records which thread resumed it. -/
def resumeOnce (me c : ℕ) (s : Sched) : Sched :=
  { s with
    pending := updFn s.pending c (s.pending c - 1)
    doneF := updFn s.doneF c (decide (s.pending c - 1 = 0))
    resumeLog := (me, c) :: s.resumeLog }

/-- JobManager::PushMainThreadJob (JobManagerImpl.cpp lines 97-103):
append the handle to the mutex-protected main-thread FIFO.  The
debug assertion on m_Running is modelled separately by
pushMainThreadJobAssertCheck; in an NDEBUG build the append is all
the function does. -/
def PushMainThreadJobF (h : ℕ) (s : Sched) : Sched :=
  { s with m_MainThreadJobs := s.m_MainThreadJobs ++ [h] }

/-- The completion block of JobManager::ResumeCoroutine
(JobManagerImpl.cpp lines 167-185): if coro.done(), bump the tracking
block counter for the current thread when the task carries a
completion sink (the local plain counter when the current thread owns
the task, the remote atomic counter otherwise; the ghost incr records
the increment for the task), and destroy the frame of a void-returning
task. -/
def completeRC (E : JobEnv) (me c : ℕ) (s3 : Sched) : Sched :=
  if s3.doneF c then
    let s4 :=
      if E.m_IncrementCounters c then
        if E.m_OwningThread c = me then
          { s3 with
            m_LocalCount := updFn s3.m_LocalCount me (s3.m_LocalCount me + 1)
            incr := updFn s3.incr c (s3.incr c + 1) }
        else
          { s3 with
            m_RemoteCount := updFn s3.m_RemoteCount me (s3.m_RemoteCount me + 1)
            incr := updFn s3.incr c (s3.incr c + 1) }
      else s3
    if E.m_ReturnVoid c then { s4 with destroyedF := updFn s4.destroyedF c true } else s4
  else s3

mutual

/-- JobManager::ResumeCoroutine (JobManagerImpl.cpp lines 142-186),
executed by thread me on task c: resume the coroutine once; if the
promise has a continuation registered in m_ResumeHandle, route it to
the main-thread queue when it is main-thread-affine and through
PushJob otherwise; then run the completion block completeRC.
Modelled from the spec: the await machinery that fills m_ResumeHandle
is not under src/, and per the spec a registration stands for one
suspended awaiter, so routing hands the registration off (the field is
cleared when the continuation is dispatched).  Fuel bounds the
recursion through PushJob displacement chains, which the source leaves
unbounded. -/
def ResumeCoroutineF (E : JobEnv) : ℕ → ℕ → ℕ → Sched → Option Sched
  | 0, _, _, _ => none
  | f + 1, me, c, s =>
    let s1 := resumeOnce me c s
    match s1.m_ResumeHandle c with
    | none => some (completeRC E me c s1)
    | some k =>
      let s2 := { s1 with m_ResumeHandle := updFn s1.m_ResumeHandle c none }
      if E.m_IsMainThread k then some (completeRC E me c (PushMainThreadJobF k s2))
      else Option.map (completeRC E me c) (PushJobF E f me k s2)

/-- JobManager::PushJob (JobManagerImpl.cpp lines 75-95), executed by
thread me posting handle h: with a single-thread pool the task is
resumed inline; otherwise the handle is exchanged into mailbox cell
[g_NextJobID me][me], a displaced still-pending handle is resumed by
the posting thread itself, and then the thread-local round-robin
counter advances modulo NumThreads — line 93 re-reads g_NextJobID
after the displaced resume, so the advance applies to the value the
resume left behind (a nested push inside the resume may have moved
it).  The debug assertion on m_Running is modelled separately by
pushJobAssertCheck. -/
def PushJobF (E : JobEnv) : ℕ → ℕ → ℕ → Sched → Option Sched
  | 0, _, _, _ => none
  | f + 1, me, h, s =>
    if E.NumThreads = 1 then ResumeCoroutineF E f me h s
    else
      let target := s.g_NextJobID me
      let s1 := { s with m_Blocks := updCell s.m_Blocks target me (some h) }
      let advance := fun s2 : Sched =>
        { s2 with g_NextJobID := updFn s2.g_NextJobID me ((s2.g_NextJobID me + 1) % E.NumThreads) }
      match s.m_Blocks target me with
      | some coro => Option.map advance (ResumeCoroutineF E f me coro s1)
      | none => some (advance s1)

end

/-- The cell loop of JobManager::ProcessJobList (JobManagerImpl.cpp
lines 190-203) over the list of remaining source indices: each cell is
first check-loaded (counted by the ghost peeks), a non-null handle is
claimed by exchange-to-null and resumed, and the scan stops after one
resumed task.  In this sequential interleaving model the check load
and the exchange observe the same cell value. -/
def pjlAux (E : JobEnv) (f tid : ℕ) : List ℕ → Sched → Option (Sched × Bool)
  | [], s => some (s, false)
  | i :: rest, s =>
    match s.m_Blocks tid i with
    | some handle =>
      match ResumeCoroutineF E f tid handle
          { s with m_Blocks := updCell s.m_Blocks tid i none, peeks := s.peeks + 1 } with
      | none => none
      | some s2 => some (s2, true)
    | none => pjlAux E f tid rest { s with peeks := s.peeks + 1 }

/-- JobManager::ProcessJobList (JobManagerImpl.cpp lines 188-205):
scan row [thread_id][*] of the mailbox matrix, resume at most one
claimed task, report whether work was found. -/
def ProcessJobListF (E : JobEnv) (f tid : ℕ) (s : Sched) : Option (Sched × Bool) :=
  pjlAux E f tid (List.range E.NumThreads) s

/-- The per-handle fold of the main-thread drain loop in
JobManager::RunJobs (JobManagerImpl.cpp lines 113-119): resume every
queued handle on thread 0. -/
def drainAux (E : JobEnv) (f : ℕ) : List ℕ → Sched → Option Sched
  | [], s => some s
  | h :: rest, s =>
    match ResumeCoroutineF E f 0 h s with
    | none => none
    | some s1 => drainAux E f rest s1

/-- The thread-0 branch of JobManager::RunJobs (JobManagerImpl.cpp
lines 111-120): under the queue mutex, resume every handle of
m_MainThreadJobs and clear the vector.  The source iterates the live
vector and clears it after the loop while still holding the
non-recursive mutex (a continuation routed back into the queue during
the drain would re-enter that mutex); the model snapshots and clears
the queue first, so handles enqueued during the drain survive for the
next pass. -/
def drainMainF (E : JobEnv) (f : ℕ) (s : Sched) : Option Sched :=
  drainAux E f s.m_MainThreadJobs { s with m_MainThreadJobs := [] }

/-- Outcome of the thread-0 drain when the mutex discipline of the
source is kept: either the drain runs to completion, or one of its
ResumeCoroutine calls performed a PushMainThreadJob — which locks
m_MainThreadJobMutex (JobManagerImpl.cpp line 101) while RunJobs
still holds that same non-recursive mutex for the whole drain loop
(line 113) — and the calling thread blocks on the re-entered mutex. -/
inductive DrainOutcome where
  | completes : Sched → DrainOutcome
  | blocksOnMutex : Sched → DrainOutcome

/-- Whether a drain outcome is the blocked one. -/
def DrainOutcome.blocked : DrainOutcome → Bool
  | DrainOutcome.completes _ => false
  | DrainOutcome.blocksOnMutex _ => true

/-- The drain loop of JobManager::RunJobs with the lock held, as the
source writes it (JobManagerImpl.cpp lines 113-119): every
ResumeCoroutine call of the loop runs under the lock_guard on
m_MainThreadJobMutex.  Inside ResumeCoroutineF the only operation that
touches the queue is PushMainThreadJobF, and it only appends; so a
resume grew the queue exactly when it called PushMainThreadJob, the
call that in the source re-locks the held non-recursive mutex (line
101) and blocks the calling thread.  The resume is modelled as one
atomic step, so blocksOnMutex carries the model state after the chain;
in the source thread 0 never gets past that lock. -/
def drainLockedAux (E : JobEnv) (f : ℕ) : List ℕ → Sched → Option DrainOutcome
  | [], s => some (DrainOutcome.completes s)
  | h :: rest, s =>
    match ResumeCoroutineF E f 0 h s with
    | none => none
    | some s1 =>
      if s1.m_MainThreadJobs.length ≠ s.m_MainThreadJobs.length then
        some (DrainOutcome.blocksOnMutex s1)
      else drainLockedAux E f rest s1

/-- The thread-0 branch of JobManager::RunJobs with the source's lock
discipline kept (JobManagerImpl.cpp lines 111-120): the drain holds
m_MainThreadJobMutex across every resume, so the first resumed chain
that routes a main-thread-affine continuation back through
PushMainThreadJob re-enters the held mutex and the calling thread
blocks there.  drainMainF above is the idealized snapshot-and-clear
semantics used by the rest of the development; this definition records
the re-entry that semantics collapses. -/
def drainMainLockedF (E : JobEnv) (f : ℕ) (s : Sched) : Option DrainOutcome :=
  drainLockedAux E f s.m_MainThreadJobs { s with m_MainThreadJobs := [] }

/-- The completion-count accumulation of JobManager::RunJobs
(JobManagerImpl.cpp lines 122-133): the local counter is read for the
calling thread index and the remote atomic counter for every other
index. -/
def completionSum (E : JobEnv) (s : Sched) (me : ℕ) : ℕ :=
  ∑ i ∈ Finset.range E.NumThreads,
    (if i = me then s.m_LocalCount i else s.m_RemoteCount i)

/-- JobManager::RunJobs (JobManagerImpl.cpp lines 105-140), the
blocking join driven by thread me: loop { process one unit from the
own matrix row; when the calling thread is thread 0 drain the whole
main-thread queue; accumulate the completion count; break when it
equals target }.  Fuel bounds the number of loop iterations. -/
def RunJobsF (E : JobEnv) : ℕ → ℕ → ℕ → Sched → Option Sched
  | 0, _, _, _ => none
  | f + 1, me, target, s =>
    match ProcessJobListF E f me s with
    | none => none
    | some (s1, _) =>
      match (if me = 0 then drainMainF E f s1 else some s1) with
      | none => none
      | some s2 =>
        if completionSum E s2 me = target then some s2
        else RunJobsF E f me target s2

/-- Outcome of the entry contract check of a push operation. -/
inductive PushOutcome where
  | proceeds : PushOutcome
  | fatalAssert : PushOutcome
deriving DecidableEq

/-- The entry check of JobManager::PushJob (JobManagerImpl.cpp lines
77-83): with NumThreads = 1 the constexpr branch resumes inline and
never reaches the assertion; otherwise assert(m_Running) fires when
no running session is active. -/
def pushJobAssertCheck (numThreads : ℕ) (running : Bool) : PushOutcome :=
  if numThreads = 1 then PushOutcome.proceeds
  else if running then PushOutcome.proceeds else PushOutcome.fatalAssert

/-- The entry check of JobManager::PushMainThreadJob
(JobManagerImpl.cpp line 99): assert(m_Running) unconditionally. -/
def pushMainThreadJobAssertCheck (running : Bool) : PushOutcome :=
  if running then PushOutcome.proceeds else PushOutcome.fatalAssert

/-- Outcome of running the JobManager constructor body
(JobManagerImpl.cpp lines 38-47): either the worker spawn loop
finishes with the given number of threads spawned, or a throw with no
worker yet spawned unwinds an empty m_Threads vector and propagates
out of the constructor, or a throw after at least one worker was
spawned unwinds a vector holding joinable std::threads — destroying a
joinable std::thread calls std::terminate, so the process dies without
the exception ever reaching a caller. -/
inductive CtorOutcome where
  | constructed : ℕ → CtorOutcome
  | threw : CtorOutcome
  | terminated : ℕ → CtorOutcome
deriving DecidableEq

/-- The worker spawn loop of the JobManager constructor
(JobManagerImpl.cpp lines 43-46) over the list of remaining loop
indices, carrying the number of threads already emplaced into
m_Threads.  throwAt = some i means the std::thread construction at
iteration i throws; per C++ unwinding rules the throw propagates only
when m_Threads is still empty, and otherwise the unwind destroys
joinable threads and the process terminates. -/
def ctorSpawnAux (throwAt : Option ℕ) : ℕ → List ℕ → CtorOutcome
  | spawned, [] => CtorOutcome.constructed spawned
  | spawned, i :: rest =>
    if throwAt = some i then
      if spawned = 0 then CtorOutcome.threw else CtorOutcome.terminated spawned
    else ctorSpawnAux throwAt (spawned + 1) rest

/-- The JobManager constructor (JobManagerImpl.cpp lines 38-47): the
spawn loop runs for i = 1 .. NumThreads - 1. -/
def JobManagerCtorF (numThreads : ℕ) (throwAt : Option ℕ) : CtorOutcome :=
  ctorSpawnAux throwAt 0 (List.range' 1 (numThreads - 1))

/-- JobManager::CreateJobManager (JobManagerImpl.cpp lines 20-36) over
the state (g_JobManager, ghost construction count): an existing
singleton short-circuits to success.  Otherwise MakeUnique either
throws before the constructor body runs (allocThrows), which the catch
turns into a false return, or runs the constructor: a completed
constructor installs the singleton and returns true, a constructor
throw with no worker yet spawned reaches the catch and returns false,
and a constructor throw after a worker was spawned terminates the
process — modelled as result none, a call that never returns at
all. -/
def CreateJobManagerFullF (numThreads : ℕ) (allocThrows : Bool)
    (throwAt : Option ℕ) (st : Option Unit × ℕ) : (Option Unit × ℕ) × Option Bool :=
  match st.1 with
  | some u => ((some u, st.2), some true)
  | none =>
    if allocThrows then ((none, st.2), some false)
    else
      match JobManagerCtorF numThreads throwAt with
      | CtorOutcome.constructed _ => ((some (), st.2 + 1), some true)
      | CtorOutcome.threw => ((none, st.2), some false)
      | CtorOutcome.terminated _ => ((none, st.2), none)

/-- A sequence of CreateJobManager calls, each with its own allocation
and spawn-loop throw outcome; a call that terminates the process ends
the sequence. -/
def createCallsF (numThreads : ℕ) : List (Bool × Option ℕ) → (Option Unit × ℕ) → (Option Unit × ℕ)
  | [], st => st
  | c :: rest, st =>
    match CreateJobManagerFullF numThreads c.1 c.2 st with
    | (st2, some _) => createCallsF numThreads rest st2
    | (st2, none) => st2

/-- The thread-local g_ThreadID initializer (JobManagerImpl.cpp line
10). -/
def gThreadIDInit : ℤ := -1

/-- JobManager::GetThreadId (JobManagerImpl.cpp lines 70-73) as seen
from a thread whose assignment is given: the constructor thread holds
some 0, a spawned worker holds some i, and any other thread still
holds the thread-local initializer. -/
def GetThreadIdF : Option ℕ → ℤ
  | some t => (t : ℤ)
  | none => gThreadIDInit

/-- The g_NextJobID seed written by the JobManager constructor on the
calling thread, which becomes thread 0 (JobManagerImpl.cpp lines
41-42). -/
def ctorSeedNextJobID : ℕ := 0

/-- The g_NextJobID seed written by JobManager::JobMain on worker
thread tid (JobManagerImpl.cpp line 210). -/
def jobMainSeedNextJobID (numThreads tid : ℕ) : ℕ :=
  (tid + 1) % numThreads

/-! ## Concrete instances used to exercise the theorems -/

/-- Single-thread pool with one tracked task. -/
def envT : JobEnv where
  NumThreads := 1
  MaxTask := 1
  m_OwningThread := fun _ => 0
  m_IsMainThread := fun _ => false
  m_IncrementCounters := fun _ => true
  m_ReturnVoid := fun _ => false

/-- The tracked task 0 sits in mailbox cell [0][0], one resume from
completion. -/
def stateT : Sched where
  m_Blocks := fun t src => if t = 0 ∧ src = 0 then some 0 else none
  m_MainThreadJobs := []
  m_LocalCount := fun _ => 0
  m_RemoteCount := fun _ => 0
  m_ResumeHandle := fun _ => none
  pending := fun c => if c = 0 then 1 else 0
  doneF := fun _ => false
  destroyedF := fun _ => false
  g_NextJobID := fun _ => 0
  incr := fun _ => 0
  resumeLog := []
  peeks := 0

/-- Two-thread pool with two untracked tasks, used for the
displacement scenario. -/
def envB : JobEnv where
  NumThreads := 2
  MaxTask := 2
  m_OwningThread := fun _ => 0
  m_IsMainThread := fun _ => false
  m_IncrementCounters := fun _ => false
  m_ReturnVoid := fun _ => false

/-- Task 1 occupies mailbox cell [1][0]; thread 0 is about to post
task 0 to target 1, displacing it. -/
def stateB : Sched where
  m_Blocks := fun t src => if t = 1 ∧ src = 0 then some 1 else none
  m_MainThreadJobs := []
  m_LocalCount := fun _ => 0
  m_RemoteCount := fun _ => 0
  m_ResumeHandle := fun _ => none
  pending := fun c => if c < 2 then 1 else 0
  doneF := fun _ => false
  destroyedF := fun _ => false
  g_NextJobID := fun t => if t = 0 then 1 else 0
  incr := fun _ => 0
  resumeLog := []
  peeks := 0

/-- Single-thread pool whose only task is main-thread-affine. -/
def envC : JobEnv where
  NumThreads := 1
  MaxTask := 1
  m_OwningThread := fun _ => 0
  m_IsMainThread := fun _ => true
  m_IncrementCounters := fun _ => false
  m_ReturnVoid := fun _ => false

/-- The main-thread-affine task 0 waits in the main-thread queue. -/
def stateC : Sched where
  m_Blocks := fun _ _ => none
  m_MainThreadJobs := [0]
  m_LocalCount := fun _ => 0
  m_RemoteCount := fun _ => 0
  m_ResumeHandle := fun _ => none
  pending := fun c => if c = 0 then 1 else 0
  doneF := fun _ => false
  destroyedF := fun _ => false
  g_NextJobID := fun _ => 0
  incr := fun _ => 0
  resumeLog := []
  peeks := 0

/-- Two-thread pool with one tracked task owned by thread 0, used to
exhibit the remote-counter indexing. -/
def envD : JobEnv where
  NumThreads := 2
  MaxTask := 1
  m_OwningThread := fun _ => 0
  m_IsMainThread := fun _ => false
  m_IncrementCounters := fun _ => true
  m_ReturnVoid := fun _ => false

/-- Task 0 (owned by thread 0) is one resume from completion and held
by the resuming thread. -/
def stateD : Sched where
  m_Blocks := fun _ _ => none
  m_MainThreadJobs := []
  m_LocalCount := fun _ => 0
  m_RemoteCount := fun _ => 0
  m_ResumeHandle := fun _ => none
  pending := fun c => if c = 0 then 1 else 0
  doneF := fun _ => false
  destroyedF := fun _ => false
  g_NextJobID := fun _ => 0
  incr := fun _ => 0
  resumeLog := []
  peeks := 0

/-- Two-thread pool with nothing tracked and an idle scheduler, with
the round-robin counter of thread 0 still at its constructor seed. -/
def envE : JobEnv where
  NumThreads := 2
  MaxTask := 1
  m_OwningThread := fun _ => 0
  m_IsMainThread := fun _ => false
  m_IncrementCounters := fun _ => false
  m_ReturnVoid := fun _ => false

/-- Idle state: empty matrix and queue, zero counters; thread 0 holds
the constructor-seeded round-robin counter. -/
def stateE : Sched where
  m_Blocks := fun _ _ => none
  m_MainThreadJobs := []
  m_LocalCount := fun _ => 0
  m_RemoteCount := fun _ => 0
  m_ResumeHandle := fun _ => none
  pending := fun c => if c = 0 then 1 else 0
  doneF := fun _ => false
  destroyedF := fun _ => false
  g_NextJobID := fun _ => ctorSeedNextJobID
  incr := fun _ => 0
  resumeLog := []
  peeks := 0

/-- Pool whose task 1 is main-thread-affine, for the drain re-entry
scenario. -/
def envG : JobEnv where
  NumThreads := 1
  MaxTask := 2
  m_OwningThread := fun _ => 0
  m_IsMainThread := fun c => c == 1
  m_IncrementCounters := fun _ => false
  m_ReturnVoid := fun _ => false

/-- Task 0 waits in the main-thread queue with the main-thread-affine
task 1 registered as its continuation: draining the queue resumes 0,
whose routing calls PushMainThreadJob for 1 while the drain still
holds m_MainThreadJobMutex. -/
def stateG : Sched where
  m_Blocks := fun _ _ => none
  m_MainThreadJobs := [0]
  m_LocalCount := fun _ => 0
  m_RemoteCount := fun _ => 0
  m_ResumeHandle := fun c => if c = 0 then some 1 else none
  pending := fun c => if c < 2 then 1 else 0
  doneF := fun _ => false
  destroyedF := fun _ => false
  g_NextJobID := fun _ => 0
  incr := fun _ => 0
  resumeLog := []
  peeks := 0

/-! ## Occupancy accounting

A task handle is live in at most one place at a time: one mailbox
cell, one position of the main-thread queue, or one m_ResumeHandle
registration of a suspended awaiter.  occCount counts those places. -/

/-- Number of in-range mailbox cells currently holding task k. -/
def cellCount (E : JobEnv) (blocks : ℕ → ℕ → Option ℕ) (k : ℕ) : ℕ :=
  ∑ p ∈ Finset.range E.NumThreads ×ˢ Finset.range E.NumThreads,
    (if blocks p.1 p.2 = some k then 1 else 0)

/-- Number of promises whose m_ResumeHandle currently registers task
k as the pending continuation. -/
def regCount (E : JobEnv) (rh : ℕ → Option ℕ) (k : ℕ) : ℕ :=
  ∑ c ∈ Finset.range E.MaxTask, (if rh c = some k then 1 else 0)

/-- Total number of places holding task k in state s. -/
def occCount (E : JobEnv) (s : Sched) (k : ℕ) : ℕ :=
  cellCount E s.m_Blocks k + s.m_MainThreadJobs.count k + regCount E s.m_ResumeHandle k

/-- Sum of both tracking-block counters over every thread index. -/
def fullSum (E : JobEnv) (s : Sched) : ℕ :=
  ∑ t ∈ Finset.range E.NumThreads, (s.m_LocalCount t + s.m_RemoteCount t)

/-- Number of tasks of the universe attached to the tracking block:
the completion target a Job List hands to RunJobs. -/
def trackedCard (E : JobEnv) : ℕ :=
  ((Finset.range E.MaxTask).filter (fun c => E.m_IncrementCounters c = true)).card

/-- The scheduler invariant, relative to an exclusion set X of tasks
that are momentarily done but whose completion increment is still in
flight (the window between coro.done() becoming true and the counter
bump later in the same ResumeCoroutine call; X is empty at every
quiescent point of the interleaving semantics).

uniq: every task is held in at most one place.
doneGone: a finished task is never held anywhere again.
placedLive: a held task is unfinished, still has a resume pending,
  and is inside the task universe.
incrSpec: outside X, the ghost increment count of a task is 1 exactly
  when the task is done and tracked, so no counter is bumped twice for
  the same task.
sumSpec: the tracking-block counters sum to the total of the ghost
  increment counts.
exceptSpec: tasks of X are done, not yet counted, held nowhere and in
  the universe.
mainNotInCells: a main-thread-affine task is never in the mailbox
  matrix.
outOfUniverse: tasks outside the universe have no registration and
  are never done.
logMain: every logged resume of a main-thread-affine task happened on
  thread 0.
nextLt: the round-robin counter of every pool thread is below
  NumThreads.
cellsInRange: out-of-range matrix indices hold nothing. -/
structure SchedInv (E : JobEnv) (X : Finset ℕ) (s : Sched) : Prop where
  uniq : ∀ k, occCount E s k ≤ 1
  doneGone : ∀ k, s.doneF k = true → occCount E s k = 0
  placedLive : ∀ k, 1 ≤ occCount E s k →
    s.doneF k = false ∧ 1 ≤ s.pending k ∧ k < E.MaxTask
  incrSpec : ∀ c, c ∉ X →
    s.incr c = (if s.doneF c = true ∧ E.m_IncrementCounters c = true then 1 else 0)
  sumSpec : fullSum E s = ∑ c ∈ Finset.range E.MaxTask, s.incr c
  exceptSpec : ∀ c ∈ X,
    s.doneF c = true ∧ s.incr c = 0 ∧ occCount E s c = 0 ∧ c < E.MaxTask
  mainNotInCells : ∀ t src k, s.m_Blocks t src = some k → E.m_IsMainThread k = false
  outOfUniverse : ∀ c, E.MaxTask ≤ c → s.m_ResumeHandle c = none ∧ s.doneF c = false
  logMain : ∀ p ∈ s.resumeLog, E.m_IsMainThread p.2 = true → p.1 = 0
  nextLt : ∀ t, t < E.NumThreads → s.g_NextJobID t < E.NumThreads
  cellsInRange : ∀ t src, E.NumThreads ≤ t ∨ E.NumThreads ≤ src → s.m_Blocks t src = none

/-- The invariant at a quiescent point: no increment in flight. -/
def Inv (E : JobEnv) (s : Sched) : Prop := SchedInv E ∅ s

/-- Frame property of an embedded operation: a task that was held
nowhere and is not the task being operated on keeps its promise
fields, its ghost increment count, and stays held nowhere. -/
def Untouched (E : JobEnv) (s s2 : Sched) (c : ℕ) : Prop :=
  ∀ x, occCount E s x = 0 → x ≠ c →
    s2.doneF x = s.doneF x ∧ s2.pending x = s.pending x ∧
    s2.m_ResumeHandle x = s.m_ResumeHandle x ∧ s2.incr x = s.incr x ∧
    occCount E s2 x = 0

/-- One step of the interleaving semantics of the running scheduler:
some thread performs one embedded operation.
proc: thread t runs one ProcessJobList pass over its matrix row (the
  inner loop of JobMain and the first statement of the RunJobs loop).
drain: thread 0 drains the main-thread queue (the thread-0 branch of
  the RunJobs loop; only thread 0 ever executes it).
push: a thread posts a fresh task through JobManager::PushJob.  The
  freshness conditions say the handle is live, inside the universe and
  held nowhere yet; routing a main-thread-affine task through PushJob
  is excluded because the Job List launch path (not under src/, per
  the spec) sends those through PushMainThreadJob.
pushMain: a thread posts a fresh main-thread-affine task through
  JobManager::PushMainThreadJob. -/
inductive StepR (E : JobEnv) : Sched → Sched → Prop where
  | proc (f t : ℕ) (s s2 : Sched) (found : Bool) :
      t < E.NumThreads → ProcessJobListF E f t s = some (s2, found) → StepR E s s2
  | drain (f : ℕ) (s s2 : Sched) :
      0 < E.NumThreads → drainMainF E f s = some s2 → StepR E s s2
  | push (f t h : ℕ) (s s2 : Sched) :
      t < E.NumThreads → h < E.MaxTask → occCount E s h = 0 →
      s.doneF h = false → 1 ≤ s.pending h → E.m_IsMainThread h = false →
      PushJobF E f t h s = some s2 → StepR E s s2
  | pushMain (h : ℕ) (s : Sched) :
      h < E.MaxTask → occCount E s h = 0 → s.doneF h = false → 1 ≤ s.pending h →
      E.m_IsMainThread h = true → StepR E s (PushMainThreadJobF h s)

/-- Finitely many interleaved scheduler steps. -/
def StepsR (E : JobEnv) : Sched → Sched → Prop :=
  Relation.ReflTransGen (StepR E)

/-! ## Accounting lemmas for the occupancy counts -/

theorem updFn_same (f : ℕ → α) (i : ℕ) (v : α) : updFn f i v i = v := by
  simp [updFn]

theorem updFn_ne (f : ℕ → α) {i x : ℕ} (v : α) (h : x ≠ i) : updFn f i v x = f x := by
  simp [updFn, h]

theorem updCell_same (f : ℕ → ℕ → Option ℕ) (a b : ℕ) (v : Option ℕ) :
    updCell f a b v a b = v := by
  simp [updCell]

theorem updCell_ne (f : ℕ → ℕ → Option ℕ) {a b x y : ℕ} (v : Option ℕ)
    (h : ¬(x = a ∧ y = b)) : updCell f a b v x y = f x y := by
  simp only [updCell, if_neg h]

theorem occCount_congr (E : JobEnv) (s s2 : Sched) (k : ℕ)
    (hb : s2.m_Blocks = s.m_Blocks) (hq : s2.m_MainThreadJobs = s.m_MainThreadJobs)
    (hr : s2.m_ResumeHandle = s.m_ResumeHandle) :
    occCount E s2 k = occCount E s k := by
  rw [occCount, occCount, hb, hq, hr]

theorem regCount_update (E : JobEnv) (rh : ℕ → Option ℕ) {c : ℕ}
    (hc : c < E.MaxTask) (v : Option ℕ) (k : ℕ) :
    regCount E (updFn rh c v) k + (if rh c = some k then 1 else 0)
      = regCount E rh k + (if v = some k then 1 else 0) := by
  have hmem : c ∈ Finset.range E.MaxTask := Finset.mem_range.mpr hc
  rw [regCount, regCount, ← Finset.add_sum_erase _ _ hmem, ← Finset.add_sum_erase _ _ hmem]
  have hrest : ∑ x ∈ (Finset.range E.MaxTask).erase c,
      (if updFn rh c v x = some k then 1 else 0)
      = ∑ x ∈ (Finset.range E.MaxTask).erase c, (if rh x = some k then 1 else 0) := by
    refine Finset.sum_congr rfl (fun x hx => ?_)
    rw [updFn_ne rh v (Finset.ne_of_mem_erase hx)]
  rw [hrest, updFn_same]
  omega

theorem cellCount_update (E : JobEnv) (blocks : ℕ → ℕ → Option ℕ) {a b : ℕ}
    (ha : a < E.NumThreads) (hb : b < E.NumThreads) (v : Option ℕ) (k : ℕ) :
    cellCount E (updCell blocks a b v) k + (if blocks a b = some k then 1 else 0)
      = cellCount E blocks k + (if v = some k then 1 else 0) := by
  have hmem : (a, b) ∈ Finset.range E.NumThreads ×ˢ Finset.range E.NumThreads := by
    rw [Finset.mem_product]
    exact ⟨Finset.mem_range.mpr ha, Finset.mem_range.mpr hb⟩
  rw [cellCount, cellCount, ← Finset.add_sum_erase _ _ hmem, ← Finset.add_sum_erase _ _ hmem]
  have hrest : ∑ p ∈ (Finset.range E.NumThreads ×ˢ Finset.range E.NumThreads).erase (a, b),
      (if updCell blocks a b v p.1 p.2 = some k then 1 else 0)
      = ∑ p ∈ (Finset.range E.NumThreads ×ˢ Finset.range E.NumThreads).erase (a, b),
        (if blocks p.1 p.2 = some k then 1 else 0) := by
    refine Finset.sum_congr rfl (fun p hp => ?_)
    have hne : ¬(p.1 = a ∧ p.2 = b) := by
      intro hcon
      exact Finset.ne_of_mem_erase hp (Prod.ext hcon.1 hcon.2)
    rw [updCell_ne blocks v hne]
  rw [hrest, updCell_same,
    show (if blocks (a, b).1 (a, b).2 = some k then 1 else 0)
      = (if blocks a b = some k then 1 else 0) from rfl]
  omega

theorem one_le_cellCount (E : JobEnv) (blocks : ℕ → ℕ → Option ℕ) {t src k : ℕ}
    (ht : t < E.NumThreads) (hs : src < E.NumThreads) (h : blocks t src = some k) :
    1 ≤ cellCount E blocks k := by
  have hmem : (t, src) ∈ Finset.range E.NumThreads ×ˢ Finset.range E.NumThreads := by
    rw [Finset.mem_product]
    exact ⟨Finset.mem_range.mpr ht, Finset.mem_range.mpr hs⟩
  have := Finset.single_le_sum
    (f := fun p : ℕ × ℕ => (if blocks p.1 p.2 = some k then 1 else 0))
    (fun _ _ => Nat.zero_le _) hmem
  rw [cellCount]
  simpa [h] using this

theorem one_le_regCount (E : JobEnv) (rh : ℕ → Option ℕ) {c k : ℕ}
    (hc : c < E.MaxTask) (h : rh c = some k) : 1 ≤ regCount E rh k := by
  have hmem : c ∈ Finset.range E.MaxTask := Finset.mem_range.mpr hc
  have := Finset.single_le_sum
    (f := fun x => (if rh x = some k then 1 else 0))
    (fun _ _ => Nat.zero_le _) hmem
  rw [regCount]
  simpa [h] using this

theorem occCount_resumeOnce (E : JobEnv) (me c : ℕ) (s : Sched) (k : ℕ) :
    occCount E (resumeOnce me c s) k = occCount E s k := by
  exact occCount_congr E s _ k rfl rfl rfl

theorem one_le_occCount_of_cell (E : JobEnv) (s : Sched) {t src k : ℕ}
    (ht : t < E.NumThreads) (hs : src < E.NumThreads) (h : s.m_Blocks t src = some k) :
    1 ≤ occCount E s k := by
  have := one_le_cellCount E s.m_Blocks ht hs h
  rw [occCount]
  omega

theorem one_le_occCount_of_reg (E : JobEnv) (s : Sched) {c k : ℕ}
    (hc : c < E.MaxTask) (h : s.m_ResumeHandle c = some k) :
    1 ≤ occCount E s k := by
  have := one_le_regCount E s.m_ResumeHandle hc h
  rw [occCount]
  omega

theorem one_le_occCount_of_queue (E : JobEnv) (s : Sched) {k : ℕ}
    (h : k ∈ s.m_MainThreadJobs) : 1 ≤ occCount E s k := by
  have : 0 < s.m_MainThreadJobs.count k := List.count_pos_iff.mpr h
  rw [occCount]
  omega

theorem sum_range_updFn {n c : ℕ} (hc : c < n) (g : ℕ → ℕ) (v : ℕ) :
    (∑ x ∈ Finset.range n, updFn g c v x) + g c
      = (∑ x ∈ Finset.range n, g x) + v := by
  have hmem : c ∈ Finset.range n := Finset.mem_range.mpr hc
  rw [← Finset.add_sum_erase _ _ hmem, ← Finset.add_sum_erase _ _ hmem]
  have hrest : ∑ x ∈ (Finset.range n).erase c, updFn g c v x
      = ∑ x ∈ (Finset.range n).erase c, g x := by
    refine Finset.sum_congr rfl (fun x hx => ?_)
    rw [updFn_ne g v (Finset.ne_of_mem_erase hx)]
  rw [hrest, updFn_same]
  omega

theorem occCount_updCell (E : JobEnv) (s : Sched) {a b : ℕ}
    (ha : a < E.NumThreads) (hb : b < E.NumThreads) (v : Option ℕ) (x : ℕ) :
    occCount E { s with m_Blocks := updCell s.m_Blocks a b v } x
        + (if s.m_Blocks a b = some x then 1 else 0)
      = occCount E s x + (if v = some x then 1 else 0) := by
  have := cellCount_update E s.m_Blocks ha hb v x
  rw [occCount, occCount]
  simp only
  omega

theorem occCount_clearReg (E : JobEnv) (s : Sched) {c k : ℕ}
    (hc : c < E.MaxTask) (hreg : s.m_ResumeHandle c = some k) (x : ℕ) :
    occCount E { s with m_ResumeHandle := updFn s.m_ResumeHandle c none } x
        + (if x = k then 1 else 0)
      = occCount E s x := by
  have := regCount_update E s.m_ResumeHandle hc none x
  rw [occCount, occCount]
  simp only [hreg] at this ⊢
  have hit : (if some k = some x then 1 else 0) = (if x = k then 1 else 0) := by
    by_cases hkx : x = k
    · simp [hkx]
    · have hkx2 : k ≠ x := fun h => hkx h.symm
      simp [hkx, hkx2]
  have h0 : (if (none : Option ℕ) = some x then 1 else 0) = 0 := by simp
  omega

theorem occCount_enqueue (E : JobEnv) (s : Sched) (k x : ℕ) :
    occCount E (PushMainThreadJobF k s) x
      = occCount E s x + (if x = k then 1 else 0) := by
  rw [occCount, occCount, PushMainThreadJobF]
  have : (s.m_MainThreadJobs ++ [k]).count x
      = s.m_MainThreadJobs.count x + (if x = k then 1 else 0) := by
    rw [List.count_append]
    by_cases hkx : x = k <;> simp [hkx, List.count_singleton]
  simp only
  omega

/-! ## Invariant preservation for each embedded micro-operation -/

theorem schedInv_resumeOnce {E : JobEnv} {X : Finset ℕ} {s : Sched} {me c : ℕ}
    (h : SchedInv E X s) (hocc : occCount E s c = 0) (hc : c < E.MaxTask)
    (hcX : c ∉ X) (hnd : s.doneF c = false)
    (hmain : E.m_IsMainThread c = true → me = 0) :
    SchedInv E (if s.pending c - 1 = 0 ∧ E.m_IncrementCounters c = true
                then insert c X else X) (resumeOnce me c s) := by
  obtain ⟨u, dg, pl, isp, ss, ex, mc, ou, lm, nl, cir⟩ := h
  have occ_eq : ∀ k, occCount E (resumeOnce me c s) k = occCount E s k :=
    occCount_resumeOnce E me c s
  have hincr0 : s.incr c = 0 := by
    rw [isp c hcX, hnd]
    simp
  refine ⟨?_, ?_, ?_, ?_, ?_, ?_, ?_, ?_, ?_, ?_, ?_⟩
  · intro k
    rw [occ_eq]
    exact u k
  · intro k hk
    rw [occ_eq]
    rcases eq_or_ne k c with rfl | hne
    · exact hocc
    · refine dg k ?_
      simpa [resumeOnce, updFn, hne] using hk
  · intro k hk
    rw [occ_eq] at hk
    rcases eq_or_ne k c with rfl | hne
    · omega
    · have := pl k hk
      simpa [resumeOnce, updFn, hne] using this
  · intro x hx
    by_cases hxc : x = c
    · subst hxc
      have hncond : ¬(s.pending x - 1 = 0 ∧ E.m_IncrementCounters x = true) := by
        intro hcond
        rw [if_pos hcond] at hx
        exact hx (Finset.mem_insert_self x X)
      show s.incr x = _
      rw [hincr0]
      simp only [resumeOnce, updFn_same]
      by_cases hp0 : s.pending x - 1 = 0
      · have : E.m_IncrementCounters x ≠ true := fun ht => hncond ⟨hp0, ht⟩
        simp [hp0, this]
      · simp [hp0]
    · have hxX : x ∉ X := by
        intro hmem
        by_cases hcond : s.pending c - 1 = 0 ∧ E.m_IncrementCounters c = true
        · rw [if_pos hcond] at hx
          exact hx (Finset.mem_insert_of_mem hmem)
        · rw [if_neg hcond] at hx
          exact hx hmem
      have := isp x hxX
      show s.incr x = _
      simpa [resumeOnce, updFn, hxc] using this
  · exact ss
  · intro x hx
    by_cases hcond : s.pending c - 1 = 0 ∧ E.m_IncrementCounters c = true
    · rw [if_pos hcond] at hx
      rcases Finset.mem_insert.mp hx with rfl | hmem
    -- the freshly finished task enters the exclusion set
      · refine ⟨?_, ?_, ?_, hc⟩
        · simp [resumeOnce, updFn_same, hcond.1]
        · show s.incr x = 0
          exact hincr0
        · rw [occ_eq]
          exact hocc
      · have hxc : x ≠ c := by
          intro hcon
          exact hcX (hcon ▸ hmem)
        obtain ⟨e1, e2, e3, e4⟩ := ex x hmem
        refine ⟨?_, e2, ?_, e4⟩
        · simpa [resumeOnce, updFn, hxc] using e1
        · rw [occ_eq]
          exact e3
    · rw [if_neg hcond] at hx
      have hxc : x ≠ c := by
        intro hcon
        exact hcX (hcon ▸ hx)
      obtain ⟨e1, e2, e3, e4⟩ := ex x hx
      refine ⟨?_, e2, ?_, e4⟩
      · simpa [resumeOnce, updFn, hxc] using e1
      · rw [occ_eq]
        exact e3
  · exact mc
  · intro x hx
    have hxc : x ≠ c := by
      intro hcon
      omega
    refine ⟨(ou x hx).1, ?_⟩
    have := (ou x hx).2
    simpa [resumeOnce, updFn, hxc] using this
  · intro p hp
    rcases List.mem_cons.mp hp with rfl | hmem
    · exact hmain
    · exact lm p hmem
  · exact nl
  · exact cir

theorem schedInv_clearReg {E : JobEnv} {X : Finset ℕ} {s : Sched} {c k : ℕ}
    (h : SchedInv E X s) (hc : c < E.MaxTask) (hreg : s.m_ResumeHandle c = some k) :
    SchedInv E X { s with m_ResumeHandle := updFn s.m_ResumeHandle c none } := by
  obtain ⟨u, dg, pl, isp, ss, ex, mc, ou, lm, nl, cir⟩ := h
  have occ_le : ∀ x, occCount E { s with m_ResumeHandle := updFn s.m_ResumeHandle c none } x
      ≤ occCount E s x := by
    intro x
    have := occCount_clearReg E s hc hreg x
    omega
  refine ⟨?_, ?_, ?_, isp, ss, ?_, mc, ?_, lm, nl, cir⟩
  · intro x
    exact le_trans (occ_le x) (u x)
  · intro x hx
    have := dg x hx
    have := occ_le x
    omega
  · intro x hx
    exact pl x (le_trans hx (occ_le x))
  · intro x hx
    obtain ⟨e1, e2, e3, e4⟩ := ex x hx
    have := occ_le x
    exact ⟨e1, e2, by omega, e4⟩
  · intro x hx
    refine ⟨?_, (ou x hx).2⟩
    have hxc : x ≠ c := by omega
    show updFn s.m_ResumeHandle c none x = none
    rw [updFn_ne _ _ hxc]
    exact (ou x hx).1

theorem schedInv_enqueue {E : JobEnv} {X : Finset ℕ} {s : Sched} {k : ℕ}
    (h : SchedInv E X s) (hocc : occCount E s k = 0) (hk : k < E.MaxTask)
    (hnd : s.doneF k = false) (hp : 1 ≤ s.pending k) (hkX : k ∉ X) :
    SchedInv E X (PushMainThreadJobF k s) := by
  obtain ⟨u, dg, pl, isp, ss, ex, mc, ou, lm, nl, cir⟩ := h
  have occ_eq : ∀ x, occCount E (PushMainThreadJobF k s) x
      = occCount E s x + (if x = k then 1 else 0) := occCount_enqueue E s k
  refine ⟨?_, ?_, ?_, isp, ss, ?_, mc, ou, lm, nl, cir⟩
  · intro x
    rw [occ_eq]
    rcases eq_or_ne x k with rfl | hne
    · simp [hocc]
    · have := u x
      simp [hne]
      omega
  · intro x hx
    rw [occ_eq]
    have hx2 : s.doneF x = true := hx
    have hxk : x ≠ k := by
      intro hcon
      subst hcon
      rw [hnd] at hx2
      exact Bool.false_ne_true hx2
    rw [dg x hx2, if_neg hxk]
  · intro x hx
    rw [occ_eq] at hx
    rcases eq_or_ne x k with rfl | hne
    · exact ⟨hnd, hp, hk⟩
    · rw [if_neg hne] at hx
      exact pl x (by omega)
  · intro x hx
    obtain ⟨e1, e2, e3, e4⟩ := ex x hx
    have hxk : x ≠ k := by
      intro hcon
      exact hkX (hcon ▸ hx)
    refine ⟨e1, e2, ?_, e4⟩
    rw [occ_eq, e3, if_neg hxk]

theorem schedInv_putCell {E : JobEnv} {X : Finset ℕ} {s : Sched} {a b hTask : ℕ}
    (h : SchedInv E X s) (ha : a < E.NumThreads) (hb : b < E.NumThreads)
    (hocc : occCount E s hTask = 0) (hk : hTask < E.MaxTask)
    (hnd : s.doneF hTask = false) (hp : 1 ≤ s.pending hTask)
    (hmain : E.m_IsMainThread hTask = false) (hX : hTask ∉ X) :
    SchedInv E X { s with m_Blocks := updCell s.m_Blocks a b (some hTask) }
      ∧ (∀ d, s.m_Blocks a b = some d →
          occCount E { s with m_Blocks := updCell s.m_Blocks a b (some hTask) } d = 0) := by
  obtain ⟨u, dg, pl, isp, ss, ex, mc, ou, lm, nl, cir⟩ := h
  have occ_eq : ∀ x, occCount E { s with m_Blocks := updCell s.m_Blocks a b (some hTask) } x
      + (if s.m_Blocks a b = some x then 1 else 0)
      = occCount E s x + (if hTask = x then 1 else 0) := by
    intro x
    have := occCount_updCell E s ha hb (some hTask) x
    have hit : (if some hTask = some x then 1 else 0) = (if hTask = x then 1 else 0) := by
      by_cases hx : hTask = x <;> simp [hx]
    omega
  have hdisp : ∀ d, s.m_Blocks a b = some d →
      occCount E { s with m_Blocks := updCell s.m_Blocks a b (some hTask) } d = 0 := by
    intro d hd
    have hocc1 : 1 ≤ occCount E s d := one_le_occCount_of_cell E s ha hb hd
    have hne : hTask ≠ d := by
      intro hcon
      subst hcon
      omega
    have hud := u d
    have h1 := occ_eq d
    have e1 : (if some d = some d then (1:ℕ) else 0) = 1 := by simp
    have e2 : (if hTask = d then (1:ℕ) else 0) = 0 := by simp [hne]
    rw [hd, e1, e2] at h1
    omega
  refine ⟨⟨?_, ?_, ?_, isp, ss, ?_, ?_, ou, lm, nl, ?_⟩, hdisp⟩
  · intro x
    have h1 := occ_eq x
    by_cases hxe : x = hTask
    · subst hxe
      have e2 : (if x = x then (1:ℕ) else 0) = 1 := by simp
      rw [e2] at h1
      omega
    · have hne2 : hTask ≠ x := fun hcon => hxe hcon.symm
      have e2 : (if hTask = x then (1:ℕ) else 0) = 0 := by simp [hne2]
      rw [e2] at h1
      have hu := u x
      omega
  · intro x hx
    have hx2 : s.doneF x = true := hx
    have hxt : x ≠ hTask := by
      intro hcon
      subst hcon
      rw [hnd] at hx2
      exact Bool.false_ne_true hx2
    have hne2 : hTask ≠ x := fun hcon => hxt hcon.symm
    have hdgx := dg x hx2
    rcases Option.eq_none_or_eq_some (s.m_Blocks a b) with hnone | ⟨d, hd⟩
    · have h1 := occ_eq x
      rw [if_neg hne2, hnone] at h1
      have h0 : (if (none : Option ℕ) = some x then 1 else 0) = 0 := by simp
      omega
    · rcases eq_or_ne x d with rfl | hxd
      · exact hdisp x hd
      · have h1 := occ_eq x
        have hne3 : s.m_Blocks a b ≠ some x := by
          rw [hd]
          intro hcon
          exact hxd (Option.some_injective ℕ hcon).symm
        rw [if_neg hne2, if_neg hne3] at h1
        omega
  · intro x hx
    rcases eq_or_ne x hTask with rfl | hne
    · exact ⟨hnd, hp, hk⟩
    · have := occ_eq x
      have hne2 : hTask ≠ x := fun hcon => hne hcon.symm
      rw [if_neg hne2] at this
      refine pl x ?_
      omega
  · intro x hx
    obtain ⟨e1, e2, e3, e4⟩ := ex x hx
    have hxt : x ≠ hTask := by
      intro hcon
      exact hX (hcon ▸ hx)
    have := occ_eq x
    have hne2 : hTask ≠ x := fun hcon => hxt hcon.symm
    rw [if_neg hne2] at this
    exact ⟨e1, e2, by omega, e4⟩
  · intro t src k hcell
    have hcell2 : updCell s.m_Blocks a b (some hTask) t src = some k := hcell
    by_cases hab : t = a ∧ src = b
    · obtain ⟨rfl, rfl⟩ := hab
      rw [updCell_same] at hcell2
      rw [← Option.some_injective ℕ hcell2]
      exact hmain
    · rw [updCell_ne _ _ hab] at hcell2
      exact mc t src k hcell2
  · intro t src hout
    have hab : ¬(t = a ∧ src = b) := by
      intro hcon
      rcases hout with hout | hout <;> omega
    show updCell s.m_Blocks a b (some hTask) t src = none
    rw [updCell_ne _ _ hab]
    exact cir t src hout

theorem schedInv_advance {E : JobEnv} {X : Finset ℕ} {s : Sched} {me v : ℕ}
    (h : SchedInv E X s) (hv : v < E.NumThreads) :
    SchedInv E X { s with g_NextJobID := updFn s.g_NextJobID me v } := by
  obtain ⟨u, dg, pl, isp, ss, ex, mc, ou, lm, nl, cir⟩ := h
  refine ⟨u, dg, pl, isp, ss, ex, mc, ou, lm, ?_, cir⟩
  intro t ht
  show updFn s.g_NextJobID me v t < E.NumThreads
  rcases eq_or_ne t me with rfl | hne
  · rw [updFn_same]
    exact hv
  · rw [updFn_ne _ _ hne]
    exact nl t ht

theorem schedInv_irrelevant {E : JobEnv} {X : Finset ℕ} {s s2 : Sched}
    (h : SchedInv E X s)
    (hb : s2.m_Blocks = s.m_Blocks) (hq : s2.m_MainThreadJobs = s.m_MainThreadJobs)
    (hr : s2.m_ResumeHandle = s.m_ResumeHandle) (hd : s2.doneF = s.doneF)
    (hp : s2.pending = s.pending) (hi : s2.incr = s.incr)
    (hl : s2.m_LocalCount = s.m_LocalCount) (hrc : s2.m_RemoteCount = s.m_RemoteCount)
    (hlg : s2.resumeLog = s.resumeLog) (hn : s2.g_NextJobID = s.g_NextJobID) :
    SchedInv E X s2 := by
  obtain ⟨u, dg, pl, isp, ss, ex, mc, ou, lm, nl, cir⟩ := h
  have occ_eq : ∀ x, occCount E s2 x = occCount E s x :=
    fun x => occCount_congr E s s2 x hb hq hr
  have full_eq : fullSum E s2 = fullSum E s := by
    rw [fullSum, fullSum, hl, hrc]
  refine ⟨?_, ?_, ?_, ?_, ?_, ?_, ?_, ?_, ?_, ?_, ?_⟩
  · intro k
    rw [occ_eq]
    exact u k
  · intro k hk
    rw [occ_eq]
    refine dg k ?_
    rwa [hd] at hk
  · intro k hk
    rw [occ_eq] at hk
    rw [hd, hp]
    exact pl k hk
  · intro x hx
    rw [hi, hd]
    exact isp x hx
  · rw [full_eq, hi]
    exact ss
  · intro x hx
    obtain ⟨e1, e2, e3, e4⟩ := ex x hx
    rw [hd, hi, occ_eq]
    exact ⟨e1, e2, e3, e4⟩
  · intro t src k hcell
    rw [hb] at hcell
    exact mc t src k hcell
  · intro x hx
    rw [hr, hd]
    exact ou x hx
  · intro p hp2
    rw [hlg] at hp2
    exact lm p hp2
  · intro t ht
    rw [hn]
    exact nl t ht
  · intro t src hout
    rw [hb]
    exact cir t src hout

theorem schedInv_bumpLocal {E : JobEnv} {X : Finset ℕ} {s : Sched} {c me : ℕ}
    (h : SchedInv E (insert c X) s) (hcX : c ∉ X) (hme : me < E.NumThreads)
    (hc : c < E.MaxTask) (hdone : s.doneF c = true)
    (htr : E.m_IncrementCounters c = true) :
    SchedInv E X { s with
      m_LocalCount := updFn s.m_LocalCount me (s.m_LocalCount me + 1)
      incr := updFn s.incr c (s.incr c + 1) } := by
  obtain ⟨u, dg, pl, isp, ss, ex, mc, ou, lm, nl, cir⟩ := h
  have hincr0 : s.incr c = 0 := (ex c (Finset.mem_insert_self c X)).2.1
  have occ_eq : ∀ x, occCount E { s with
      m_LocalCount := updFn s.m_LocalCount me (s.m_LocalCount me + 1)
      incr := updFn s.incr c (s.incr c + 1) } x = occCount E s x :=
    fun x => occCount_congr E s _ x rfl rfl rfl
  have hsum1 : (∑ t ∈ Finset.range E.NumThreads, updFn s.m_LocalCount me (s.m_LocalCount me + 1) t)
      = (∑ t ∈ Finset.range E.NumThreads, s.m_LocalCount t) + 1 := by
    have := sum_range_updFn hme s.m_LocalCount (s.m_LocalCount me + 1)
    omega
  have hsum2 : (∑ x ∈ Finset.range E.MaxTask, updFn s.incr c (s.incr c + 1) x)
      = (∑ x ∈ Finset.range E.MaxTask, s.incr x) + 1 := by
    have := sum_range_updFn hc s.incr (s.incr c + 1)
    omega
  refine ⟨?_, ?_, ?_, ?_, ?_, ?_, mc, ou, lm, nl, cir⟩
  · intro k
    rw [occ_eq]
    exact u k
  · intro k hk
    rw [occ_eq]
    exact dg k hk
  · intro k hk
    rw [occ_eq] at hk
    exact pl k hk
  · intro x hx
    show updFn s.incr c (s.incr c + 1) x = _
    rcases eq_or_ne x c with rfl | hne
    · rw [updFn_same, hincr0]
      show 0 + 1 = if s.doneF x = true ∧ E.m_IncrementCounters x = true then 1 else 0
      rw [if_pos ⟨hdone, htr⟩]
    · rw [updFn_ne _ _ hne]
      have hxX : x ∉ insert c X := by
        intro hmem
        rcases Finset.mem_insert.mp hmem with hcon | hmem2
        · exact hne hcon
        · exact hx hmem2
      exact isp x hxX
  · show fullSum E _ = _
    rw [fullSum]
    have hsplit : ∑ t ∈ Finset.range E.NumThreads,
        (updFn s.m_LocalCount me (s.m_LocalCount me + 1) t + s.m_RemoteCount t)
        = (∑ t ∈ Finset.range E.NumThreads, updFn s.m_LocalCount me (s.m_LocalCount me + 1) t)
          + ∑ t ∈ Finset.range E.NumThreads, s.m_RemoteCount t := Finset.sum_add_distrib
    rw [hsplit, hsum1, hsum2]
    have hfs : fullSum E s = (∑ t ∈ Finset.range E.NumThreads, s.m_LocalCount t)
        + ∑ t ∈ Finset.range E.NumThreads, s.m_RemoteCount t := by
      rw [fullSum]
      exact Finset.sum_add_distrib
    rw [hfs] at ss
    omega
  · intro x hx
    obtain ⟨e1, e2, e3, e4⟩ := ex x (Finset.mem_insert_of_mem hx)
    have hxc : x ≠ c := by
      intro hcon
      exact hcX (hcon ▸ hx)
    refine ⟨e1, ?_, ?_, e4⟩
    · show updFn s.incr c (s.incr c + 1) x = 0
      rw [updFn_ne _ _ hxc]
      exact e2
    · rw [occ_eq]
      exact e3

theorem schedInv_bumpRemote {E : JobEnv} {X : Finset ℕ} {s : Sched} {c me : ℕ}
    (h : SchedInv E (insert c X) s) (hcX : c ∉ X) (hme : me < E.NumThreads)
    (hc : c < E.MaxTask) (hdone : s.doneF c = true)
    (htr : E.m_IncrementCounters c = true) :
    SchedInv E X { s with
      m_RemoteCount := updFn s.m_RemoteCount me (s.m_RemoteCount me + 1)
      incr := updFn s.incr c (s.incr c + 1) } := by
  obtain ⟨u, dg, pl, isp, ss, ex, mc, ou, lm, nl, cir⟩ := h
  have hincr0 : s.incr c = 0 := (ex c (Finset.mem_insert_self c X)).2.1
  have occ_eq : ∀ x, occCount E { s with
      m_RemoteCount := updFn s.m_RemoteCount me (s.m_RemoteCount me + 1)
      incr := updFn s.incr c (s.incr c + 1) } x = occCount E s x :=
    fun x => occCount_congr E s _ x rfl rfl rfl
  have hsum1 : (∑ t ∈ Finset.range E.NumThreads, updFn s.m_RemoteCount me (s.m_RemoteCount me + 1) t)
      = (∑ t ∈ Finset.range E.NumThreads, s.m_RemoteCount t) + 1 := by
    have := sum_range_updFn hme s.m_RemoteCount (s.m_RemoteCount me + 1)
    omega
  have hsum2 : (∑ x ∈ Finset.range E.MaxTask, updFn s.incr c (s.incr c + 1) x)
      = (∑ x ∈ Finset.range E.MaxTask, s.incr x) + 1 := by
    have := sum_range_updFn hc s.incr (s.incr c + 1)
    omega
  refine ⟨?_, ?_, ?_, ?_, ?_, ?_, mc, ou, lm, nl, cir⟩
  · intro k
    rw [occ_eq]
    exact u k
  · intro k hk
    rw [occ_eq]
    exact dg k hk
  · intro k hk
    rw [occ_eq] at hk
    exact pl k hk
  · intro x hx
    show updFn s.incr c (s.incr c + 1) x = _
    rcases eq_or_ne x c with rfl | hne
    · rw [updFn_same, hincr0]
      show 0 + 1 = if s.doneF x = true ∧ E.m_IncrementCounters x = true then 1 else 0
      rw [if_pos ⟨hdone, htr⟩]
    · rw [updFn_ne _ _ hne]
      have hxX : x ∉ insert c X := by
        intro hmem
        rcases Finset.mem_insert.mp hmem with hcon | hmem2
        · exact hne hcon
        · exact hx hmem2
      exact isp x hxX
  · show fullSum E _ = _
    rw [fullSum]
    have hsplit : ∑ t ∈ Finset.range E.NumThreads,
        (s.m_LocalCount t + updFn s.m_RemoteCount me (s.m_RemoteCount me + 1) t)
        = (∑ t ∈ Finset.range E.NumThreads, s.m_LocalCount t)
          + ∑ t ∈ Finset.range E.NumThreads,
              updFn s.m_RemoteCount me (s.m_RemoteCount me + 1) t := Finset.sum_add_distrib
    rw [hsplit, hsum1, hsum2]
    have hfs : fullSum E s = (∑ t ∈ Finset.range E.NumThreads, s.m_LocalCount t)
        + ∑ t ∈ Finset.range E.NumThreads, s.m_RemoteCount t := by
      rw [fullSum]
      exact Finset.sum_add_distrib
    rw [hfs] at ss
    omega
  · intro x hx
    obtain ⟨e1, e2, e3, e4⟩ := ex x (Finset.mem_insert_of_mem hx)
    have hxc : x ≠ c := by
      intro hcon
      exact hcX (hcon ▸ hx)
    refine ⟨e1, ?_, ?_, e4⟩
    · show updFn s.incr c (s.incr c + 1) x = 0
      rw [updFn_ne _ _ hxc]
      exact e2
    · rw [occ_eq]
      exact e3

/-! ## Unfolding equations for the fuelled mutual recursion -/

theorem rc_zero (E : JobEnv) (me c : ℕ) (s : Sched) :
    ResumeCoroutineF E 0 me c s = none := rfl

theorem push_zero (E : JobEnv) (me h : ℕ) (s : Sched) :
    PushJobF E 0 me h s = none := rfl

theorem rc_succ_none {E : JobEnv} {f me c : ℕ} {s : Sched}
    (hrh : s.m_ResumeHandle c = none) :
    ResumeCoroutineF E (f + 1) me c s
      = some (completeRC E me c (resumeOnce me c s)) := by
  have hrh2 : (resumeOnce me c s).m_ResumeHandle c = none := hrh
  simp only [ResumeCoroutineF, hrh2]

theorem rc_succ_main {E : JobEnv} {f me c k : ℕ} {s : Sched}
    (hrh : s.m_ResumeHandle c = some k) (hm : E.m_IsMainThread k = true) :
    ResumeCoroutineF E (f + 1) me c s
      = some (completeRC E me c (PushMainThreadJobF k
          { resumeOnce me c s with
            m_ResumeHandle := updFn (resumeOnce me c s).m_ResumeHandle c none })) := by
  have hrh2 : (resumeOnce me c s).m_ResumeHandle c = some k := hrh
  simp only [ResumeCoroutineF, hrh2, hm, if_true]

theorem rc_succ_push {E : JobEnv} {f me c k : ℕ} {s : Sched}
    (hrh : s.m_ResumeHandle c = some k) (hm : E.m_IsMainThread k = false) :
    ResumeCoroutineF E (f + 1) me c s
      = Option.map (completeRC E me c) (PushJobF E f me k
          { resumeOnce me c s with
            m_ResumeHandle := updFn (resumeOnce me c s).m_ResumeHandle c none }) := by
  have hrh2 : (resumeOnce me c s).m_ResumeHandle c = some k := hrh
  simp only [ResumeCoroutineF, hrh2, hm, Bool.false_eq_true, if_false]

theorem push_succ_single {E : JobEnv} {f me h : ℕ} {s : Sched}
    (hN : E.NumThreads = 1) :
    PushJobF E (f + 1) me h s = ResumeCoroutineF E f me h s := by
  simp only [PushJobF, hN, if_true]

theorem push_succ_disp {E : JobEnv} {f me h d : ℕ} {s : Sched}
    (hN : E.NumThreads ≠ 1) (hd : s.m_Blocks (s.g_NextJobID me) me = some d) :
    PushJobF E (f + 1) me h s
      = Option.map (fun s2 : Sched => { s2 with g_NextJobID := updFn s2.g_NextJobID me ((s2.g_NextJobID me + 1) % E.NumThreads) })
          (ResumeCoroutineF E f me d
            { s with m_Blocks := updCell s.m_Blocks (s.g_NextJobID me) me (some h) }) := by
  simp only [PushJobF, hN, if_false, hd]

theorem push_succ_empty {E : JobEnv} {f me h : ℕ} {s : Sched}
    (hN : E.NumThreads ≠ 1) (hd : s.m_Blocks (s.g_NextJobID me) me = none) :
    PushJobF E (f + 1) me h s
      = some { { s with m_Blocks := updCell s.m_Blocks (s.g_NextJobID me) me (some h) } with
          g_NextJobID := updFn s.g_NextJobID me ((s.g_NextJobID me + 1) % E.NumThreads) } := by
  simp only [PushJobF, hN, if_false, hd]

/-! ## Properties of the completion block -/

theorem completeRC_shape (E : JobEnv) (me c : ℕ) (s3 : Sched) :
    ∃ lc rc ic dc, completeRC E me c s3
      = { s3 with m_LocalCount := lc, m_RemoteCount := rc, incr := ic, destroyedF := dc } := by
  unfold completeRC
  split_ifs <;> exact ⟨_, _, _, _, rfl⟩

theorem completeRC_occ (E : JobEnv) (me c : ℕ) (s3 : Sched) (x : ℕ) :
    occCount E (completeRC E me c s3) x = occCount E s3 x := by
  obtain ⟨lc, rc, ic, dc, hs⟩ := completeRC_shape E me c s3
  rw [hs]
  exact occCount_congr E s3 _ x rfl rfl rfl

theorem completeRC_doneF (E : JobEnv) (me c : ℕ) (s3 : Sched) :
    (completeRC E me c s3).doneF = s3.doneF := by
  obtain ⟨lc, rc, ic, dc, hs⟩ := completeRC_shape E me c s3
  rw [hs]

theorem completeRC_pending (E : JobEnv) (me c : ℕ) (s3 : Sched) :
    (completeRC E me c s3).pending = s3.pending := by
  obtain ⟨lc, rc, ic, dc, hs⟩ := completeRC_shape E me c s3
  rw [hs]

theorem completeRC_rh (E : JobEnv) (me c : ℕ) (s3 : Sched) :
    (completeRC E me c s3).m_ResumeHandle = s3.m_ResumeHandle := by
  obtain ⟨lc, rc, ic, dc, hs⟩ := completeRC_shape E me c s3
  rw [hs]

theorem completeRC_log (E : JobEnv) (me c : ℕ) (s3 : Sched) :
    (completeRC E me c s3).resumeLog = s3.resumeLog := by
  obtain ⟨lc, rc, ic, dc, hs⟩ := completeRC_shape E me c s3
  rw [hs]

theorem completeRC_incr_ne (E : JobEnv) (me c : ℕ) (s3 : Sched) {x : ℕ} (hx : x ≠ c) :
    (completeRC E me c s3).incr x = s3.incr x := by
  unfold completeRC
  split_ifs <;> simp [updFn_ne _ _ hx]

theorem schedInv_completeRC_done {E : JobEnv} {X : Finset ℕ} {s3 : Sched} {me c : ℕ}
    (h : SchedInv E (insert c X) s3) (hcX : c ∉ X) (hme : me < E.NumThreads)
    (hc : c < E.MaxTask) (hdone : s3.doneF c = true)
    (htr : E.m_IncrementCounters c = true) :
    SchedInv E X (completeRC E me c s3) := by
  unfold completeRC
  rw [if_pos hdone, if_pos htr]
  by_cases how : E.m_OwningThread c = me
  · rw [if_pos how]
    by_cases hrv : E.m_ReturnVoid c = true
    · rw [if_pos hrv]
      exact schedInv_irrelevant (schedInv_bumpLocal h hcX hme hc hdone htr)
        rfl rfl rfl rfl rfl rfl rfl rfl rfl rfl
    · rw [if_neg hrv]
      exact schedInv_bumpLocal h hcX hme hc hdone htr
  · rw [if_neg how]
    by_cases hrv : E.m_ReturnVoid c = true
    · rw [if_pos hrv]
      exact schedInv_irrelevant (schedInv_bumpRemote h hcX hme hc hdone htr)
        rfl rfl rfl rfl rfl rfl rfl rfl rfl rfl
    · rw [if_neg hrv]
      exact schedInv_bumpRemote h hcX hme hc hdone htr

theorem schedInv_completeRC_notdone {E : JobEnv} {X : Finset ℕ} {s3 : Sched} {me c : ℕ}
    (h : SchedInv E X s3) (hnd : s3.doneF c = false) :
    SchedInv E X (completeRC E me c s3) := by
  unfold completeRC
  have : ¬(s3.doneF c = true) := by
    rw [hnd]
    exact Bool.false_ne_true
  rw [if_neg this]
  exact h

theorem schedInv_completeRC_untracked {E : JobEnv} {X : Finset ℕ} {s3 : Sched} {me c : ℕ}
    (h : SchedInv E X s3) (htr : E.m_IncrementCounters c = false) :
    SchedInv E X (completeRC E me c s3) := by
  unfold completeRC
  by_cases hdone : s3.doneF c = true
  · rw [if_pos hdone]
    have : ¬(E.m_IncrementCounters c = true) := by
      rw [htr]
      exact Bool.false_ne_true
    rw [if_neg this]
    by_cases hrv : E.m_ReturnVoid c = true
    · rw [if_pos hrv]
      exact schedInv_irrelevant h rfl rfl rfl rfl rfl rfl rfl rfl rfl rfl
    · rw [if_neg hrv]
      exact h
  · rw [if_neg hdone]
    exact h

theorem resumeOnce_doneF_ne {me c : ℕ} (s : Sched) {x : ℕ} (hx : x ≠ c) :
    (resumeOnce me c s).doneF x = s.doneF x := by
  simp [resumeOnce, updFn, hx]

theorem resumeOnce_pending_ne {me c : ℕ} (s : Sched) {x : ℕ} (hx : x ≠ c) :
    (resumeOnce me c s).pending x = s.pending x := by
  simp [resumeOnce, updFn, hx]

theorem resumeOnce_doneF_self (me c : ℕ) (s : Sched) :
    (resumeOnce me c s).doneF c = decide (s.pending c - 1 = 0) := by
  simp [resumeOnce, updFn]

/-- Dispatch over the completion block: whatever the routing did, once
the invariant holds relative to the exclusion set chosen by
schedInv_resumeOnce and the done flag of the resumed task is the one
the resume computed, the completion block restores the invariant for
the original exclusion set. -/
theorem schedInv_completeRC_dispatch {E : JobEnv} {X : Finset ℕ} {s3 : Sched} {me c : ℕ}
    (cond : Prop) [Decidable cond]
    (hInv3 : SchedInv E (if cond ∧ E.m_IncrementCounters c = true then insert c X else X) s3)
    (hdone3 : s3.doneF c = decide cond)
    (hcX : c ∉ X) (hme : me < E.NumThreads) (hc : c < E.MaxTask) :
    SchedInv E X (completeRC E me c s3) := by
  by_cases hpc : cond
  · by_cases htr : E.m_IncrementCounters c = true
    · rw [if_pos ⟨hpc, htr⟩] at hInv3
      refine schedInv_completeRC_done hInv3 hcX hme hc ?_ htr
      rw [hdone3]
      simp [hpc]
    · rw [if_neg (fun hcon => htr hcon.2)] at hInv3
      refine schedInv_completeRC_untracked hInv3 ?_
      cases htrv : E.m_IncrementCounters c
      · rfl
      · exact absurd htrv htr
  · rw [if_neg (fun hcon => hpc hcon.1)] at hInv3
    refine schedInv_completeRC_notdone hInv3 ?_
    rw [hdone3]
    simp [hpc]

/-- Joint preservation lemma for ResumeCoroutine and PushJob: both
preserve the scheduler invariant, touch no task that was held nowhere,
only grow the resume log, and record the resumes the claims care
about. -/
theorem rcPushMasters (E : JobEnv) :
    ∀ f : ℕ,
      (∀ me c s s' X, SchedInv E X s → me < E.NumThreads → c < E.MaxTask → c ∉ X →
        s.doneF c = false → 1 ≤ s.pending c → occCount E s c = 0 →
        (E.m_IsMainThread c = true → me = 0) →
        ResumeCoroutineF E f me c s = some s' →
        SchedInv E X s' ∧ Untouched E s s' c ∧
          (∀ p ∈ s.resumeLog, p ∈ s'.resumeLog) ∧ (me, c) ∈ s'.resumeLog)
      ∧ (∀ me h s s' X, SchedInv E X s → me < E.NumThreads → h < E.MaxTask → h ∉ X →
        s.doneF h = false → 1 ≤ s.pending h → occCount E s h = 0 →
        E.m_IsMainThread h = false →
        PushJobF E f me h s = some s' →
        SchedInv E X s' ∧ Untouched E s s' h ∧
          (∀ p ∈ s.resumeLog, p ∈ s'.resumeLog) ∧
          (∀ d, E.NumThreads ≠ 1 → s.m_Blocks (s.g_NextJobID me) me = some d →
            (me, d) ∈ s'.resumeLog)) := by
  intro f
  induction f with
  | zero =>
    constructor
    · intro me c s s' X _ _ _ _ _ _ _ _ hrun
      rw [rc_zero] at hrun
      exact absurd hrun (Option.noConfusion)
    · intro me h s s' X _ _ _ _ _ _ _ _ hrun
      rw [push_zero] at hrun
      exact absurd hrun (Option.noConfusion)
  | succ f ih =>
    obtain ⟨ihRC, ihPush⟩ := ih
    constructor
    · -- ResumeCoroutine at fuel f + 1
      intro me c s s' X hInv hme hc hcX hnd hp hocc hmain hrun
      have hInv1 := schedInv_resumeOnce hInv hocc hc hcX hnd hmain
      have hocc1 : occCount E (resumeOnce me c s) c = 0 := by
        rw [occCount_resumeOnce]
        exact hocc
      rcases hrh : s.m_ResumeHandle c with _ | k
      · -- no continuation registered
        rw [rc_succ_none hrh] at hrun
        have hs' : s' = completeRC E me c (resumeOnce me c s) :=
          (Option.some_injective _ hrun).symm
        subst hs'
        refine ⟨?_, ?_, ?_, ?_⟩
        · exact schedInv_completeRC_dispatch (s.pending c - 1 = 0) hInv1
            (resumeOnce_doneF_self me c s) hcX hme hc
        · intro x hx0 hxc
          refine ⟨?_, ?_, ?_, ?_, ?_⟩
          · rw [show (completeRC E me c (resumeOnce me c s)).doneF
                = (resumeOnce me c s).doneF from completeRC_doneF E me c _]
            exact resumeOnce_doneF_ne s hxc
          · rw [show (completeRC E me c (resumeOnce me c s)).pending
                = (resumeOnce me c s).pending from completeRC_pending E me c _]
            exact resumeOnce_pending_ne s hxc
          · rw [show (completeRC E me c (resumeOnce me c s)).m_ResumeHandle
                = (resumeOnce me c s).m_ResumeHandle from completeRC_rh E me c _]
            rfl
          · rw [completeRC_incr_ne E me c _ hxc]
            rfl
          · rw [completeRC_occ, occCount_resumeOnce]
            exact hx0
        · intro p hmem
          rw [completeRC_log]
          exact List.mem_cons_of_mem _ hmem
        · rw [completeRC_log]
          exact List.mem_cons_self _ _
      · -- a continuation k is registered
        have hrh1 : (resumeOnce me c s).m_ResumeHandle c = some k := hrh
        have hok : 1 ≤ occCount E s k := one_le_occCount_of_reg E s hc hrh
        have hok1 : occCount E s k = 1 := le_antisymm (hInv.uniq k) hok
        obtain ⟨hknd, hkp, hkM⟩ := hInv.placedLive k hok
        have hkc : k ≠ c := by
          intro hcon
          subst hcon
          omega
        have hkX : k ∉ X := by
          intro hmem
          have := (hInv.exceptSpec k hmem).2.2.1
          omega
        have hkX1 : k ∉ (if s.pending c - 1 = 0 ∧ E.m_IncrementCounters c = true
            then insert c X else X) := by
          intro hmem
          have hsub : (if s.pending c - 1 = 0 ∧ E.m_IncrementCounters c = true
              then insert c X else X) ⊆ insert c X := by
            split_ifs
            · exact fun y hy => hy
            · exact Finset.subset_insert c X
          rcases Finset.mem_insert.mp (hsub hmem) with hcon | hcon
          · exact hkc hcon
          · exact hkX hcon
        have hInv2 := schedInv_clearReg hInv1 hc hrh1
        have hocc2 : ∀ x, occCount E { resumeOnce me c s with
            m_ResumeHandle := updFn (resumeOnce me c s).m_ResumeHandle c none } x
            + (if x = k then 1 else 0) = occCount E s x := by
          intro x
          rw [← occCount_resumeOnce E me c s x]
          exact occCount_clearReg E (resumeOnce me c s) hc hrh1 x
        have hocc2k : occCount E { resumeOnce me c s with
            m_ResumeHandle := updFn (resumeOnce me c s).m_ResumeHandle c none } k = 0 := by
          have := hocc2 k
          rw [if_pos rfl] at this
          omega
        have hocc2c : occCount E { resumeOnce me c s with
            m_ResumeHandle := updFn (resumeOnce me c s).m_ResumeHandle c none } c = 0 := by
          have := hocc2 c
          rw [if_neg (fun hcon => hkc hcon.symm)] at this
          omega
        have hknd2 : ({ resumeOnce me c s with
            m_ResumeHandle := updFn (resumeOnce me c s).m_ResumeHandle c none } : Sched).doneF k
            = false := by
          show (resumeOnce me c s).doneF k = false
          rw [resumeOnce_doneF_ne s hkc]
          exact hknd
        have hkp2 : 1 ≤ ({ resumeOnce me c s with
            m_ResumeHandle := updFn (resumeOnce me c s).m_ResumeHandle c none } : Sched).pending k := by
          show 1 ≤ (resumeOnce me c s).pending k
          rw [resumeOnce_pending_ne s hkc]
          exact hkp
        rcases hkm : E.m_IsMainThread k with hkmf | hkmt
        · -- continuation is not main-thread-affine: routed through PushJob
          rw [rc_succ_push hrh hkm] at hrun
          rcases Option.map_eq_some'.mp hrun with ⟨sp, hpush, hsp⟩
          obtain ⟨hInvP, hUtP, hlogP, _⟩ :=
            ihPush me k _ sp _ hInv2 hme hkM hkX1 hknd2 hkp2 hocc2k hkm hpush
          have hUc := hUtP c hocc2c (fun hcon => hkc hcon.symm)
          refine ⟨?_, ?_, ?_, ?_⟩
          · rw [← hsp]
            refine schedInv_completeRC_dispatch (s.pending c - 1 = 0) hInvP ?_ hcX hme hc
            rw [hUc.1]
            exact resumeOnce_doneF_self me c s
          · intro x hx0 hxc
            have hxk : x ≠ k := by
              intro hcon
              subst hcon
              omega
            have hx2 : occCount E { resumeOnce me c s with
                m_ResumeHandle := updFn (resumeOnce me c s).m_ResumeHandle c none } x = 0 := by
              have := hocc2 x
              rw [if_neg hxk] at this
              omega
            obtain ⟨f1, f2, f3, f4, f5⟩ := hUtP x hx2 hxk
            rw [← hsp]
            refine ⟨?_, ?_, ?_, ?_, ?_⟩
            · rw [show (completeRC E me c sp).doneF = sp.doneF from completeRC_doneF E me c _,
                f1]
              show (resumeOnce me c s).doneF x = s.doneF x
              exact resumeOnce_doneF_ne s hxc
            · rw [show (completeRC E me c sp).pending = sp.pending from completeRC_pending E me c _,
                f2]
              show (resumeOnce me c s).pending x = s.pending x
              exact resumeOnce_pending_ne s hxc
            · rw [show (completeRC E me c sp).m_ResumeHandle = sp.m_ResumeHandle
                from completeRC_rh E me c _, f3]
              show updFn (resumeOnce me c s).m_ResumeHandle c none x = s.m_ResumeHandle x
              rw [updFn_ne _ _ hxc]
              rfl
            · rw [completeRC_incr_ne E me c _ hxc, f4]
              rfl
            · rw [completeRC_occ]
              exact f5
          · intro p hmem
            rw [← hsp, completeRC_log]
            refine hlogP p ?_
            show p ∈ (me, c) :: s.resumeLog
            exact List.mem_cons_of_mem _ hmem
          · rw [← hsp, completeRC_log]
            refine hlogP (me, c) ?_
            show (me, c) ∈ (me, c) :: s.resumeLog
            exact List.mem_cons_self _ _
        · -- main-thread-affine continuation: enqueued on the main queue
          rw [rc_succ_main hrh hkm] at hrun
          have hs' : s' = completeRC E me c (PushMainThreadJobF k
              { resumeOnce me c s with
                m_ResumeHandle := updFn (resumeOnce me c s).m_ResumeHandle c none }) :=
            (Option.some_injective _ hrun).symm
          subst hs'
          have hInv3 := schedInv_enqueue hInv2 hocc2k hkM hknd2 hkp2 hkX1
          refine ⟨?_, ?_, ?_, ?_⟩
          · refine schedInv_completeRC_dispatch (s.pending c - 1 = 0) hInv3 ?_ hcX hme hc
            show (resumeOnce me c s).doneF c = _
            exact resumeOnce_doneF_self me c s
          · intro x hx0 hxc
            have hxk : x ≠ k := by
              intro hcon
              subst hcon
              omega
            have hx2 : occCount E { resumeOnce me c s with
                m_ResumeHandle := updFn (resumeOnce me c s).m_ResumeHandle c none } x = 0 := by
              have := hocc2 x
              rw [if_neg hxk] at this
              omega
            refine ⟨?_, ?_, ?_, ?_, ?_⟩
            · rw [show (completeRC E me c (PushMainThreadJobF k _)).doneF
                  = (PushMainThreadJobF k _).doneF from completeRC_doneF E me c _]
              show (resumeOnce me c s).doneF x = s.doneF x
              exact resumeOnce_doneF_ne s hxc
            · rw [show (completeRC E me c (PushMainThreadJobF k _)).pending
                  = (PushMainThreadJobF k _).pending from completeRC_pending E me c _]
              show (resumeOnce me c s).pending x = s.pending x
              exact resumeOnce_pending_ne s hxc
            · rw [show (completeRC E me c (PushMainThreadJobF k _)).m_ResumeHandle
                  = (PushMainThreadJobF k _).m_ResumeHandle from completeRC_rh E me c _]
              show updFn (resumeOnce me c s).m_ResumeHandle c none x = s.m_ResumeHandle x
              rw [updFn_ne _ _ hxc]
              rfl
            · rw [completeRC_incr_ne E me c _ hxc]
              rfl
            · rw [completeRC_occ, occCount_enqueue, if_neg hxk, hx2]
          · intro p hmem
            rw [completeRC_log]
            show p ∈ (PushMainThreadJobF k _).resumeLog
            show p ∈ (me, c) :: s.resumeLog
            exact List.mem_cons_of_mem _ hmem
          · rw [completeRC_log]
            show (me, c) ∈ (me, c) :: s.resumeLog
            exact List.mem_cons_self _ _
    · -- PushJob at fuel f + 1
      intro me h s s' X hInv hme hhM hhX hnd hp hocc hmainF hrun
      by_cases hN1 : E.NumThreads = 1
      · rw [push_succ_single hN1] at hrun
        obtain ⟨hI, hU, hlog, _⟩ := ihRC me h s s' X hInv hme hhM hhX hnd hp hocc
          (fun hcon => by rw [hmainF] at hcon; exact absurd hcon Bool.false_ne_true) hrun
        exact ⟨hI, hU, hlog, fun d hNne _ => absurd hN1 hNne⟩
      · have ht : s.g_NextJobID me < E.NumThreads := hInv.nextLt me hme
        have hNpos : 0 < E.NumThreads := lt_of_le_of_lt (Nat.zero_le me) hme
        have hmodlt : (s.g_NextJobID me + 1) % E.NumThreads < E.NumThreads :=
          Nat.mod_lt _ hNpos
        obtain ⟨hInv1, hdisp0⟩ := schedInv_putCell hInv ht hme hocc hhM hnd hp hmainF hhX
        rcases hd : s.m_Blocks (s.g_NextJobID me) me with _ | d
        · -- empty cell: plain deposit and round-robin advance
          rw [push_succ_empty hN1 hd] at hrun
          have hs' := (Option.some_injective _ hrun).symm
          subst hs'
          have hocc1 : ∀ x, x ≠ h →
              occCount E { s with m_Blocks := updCell s.m_Blocks (s.g_NextJobID me) me (some h) } x
                = occCount E s x := by
            intro x hxh
            have := occCount_updCell E s ht hme (some h) x
            rw [hd] at this
            have hxh2 : h ≠ x := fun hcon => hxh hcon.symm
            have h0 : (if (none : Option ℕ) = some x then 1 else 0) = 0 := by simp
            have h1 : (if some h = some x then 1 else 0) = 0 := by simp [hxh2]
            omega
          refine ⟨?_, ?_, ?_, ?_⟩
          · exact schedInv_advance hInv1 hmodlt
          · intro x hx0 hxh
            refine ⟨rfl, rfl, rfl, rfl, ?_⟩
            have hocc0 : occCount E { s with
                m_Blocks := updCell s.m_Blocks (s.g_NextJobID me) me (some h) } x = 0 := by
              rw [hocc1 x hxh]
              exact hx0
            exact hocc0
          · intro p hmem
            exact hmem
          · intro d hNne hd2
            exact absurd hd2 (Option.noConfusion)
        · -- occupied cell: the displaced handle is resumed by this thread
          rw [push_succ_disp hN1 hd] at hrun
          rcases Option.map_eq_some'.mp hrun with ⟨sr, hrc, hsr⟩
          have hoccd : occCount E s d = 1 :=
            le_antisymm (hInv.uniq d) (one_le_occCount_of_cell E s ht hme hd)
          obtain ⟨hdnd, hdp, hdM⟩ := hInv.placedLive d (by omega)
          have hdm : E.m_IsMainThread d = false := hInv.mainNotInCells _ _ _ hd
          have hdX : d ∉ X := by
            intro hmem
            have := (hInv.exceptSpec d hmem).2.2.1
            omega
          have hdh : d ≠ h := by
            intro hcon
            subst hcon
            omega
          have hoccd1 : occCount E { s with
              m_Blocks := updCell s.m_Blocks (s.g_NextJobID me) me (some h) } d = 0 :=
            hdisp0 d hd
          obtain ⟨hIr, hUr, hlogr, hmemr⟩ := ihRC me d _ sr X hInv1 hme hdM hdX
            (show s.doneF d = false from hdnd) (show 1 ≤ s.pending d from hdp) hoccd1
            (fun hcon => by rw [hdm] at hcon; exact absurd hcon Bool.false_ne_true) hrc
          have hocc1 : ∀ x, x ≠ h → x ≠ d →
              occCount E { s with m_Blocks := updCell s.m_Blocks (s.g_NextJobID me) me (some h) } x
                = occCount E s x := by
            intro x hxh hxd
            have := occCount_updCell E s ht hme (some h) x
            rw [hd] at this
            have hxd2 : d ≠ x := fun hcon => hxd hcon.symm
            have hxh2 : h ≠ x := fun hcon => hxh hcon.symm
            have h0 : (if some d = some x then 1 else 0) = 0 := by simp [hxd2]
            have h1 : (if some h = some x then 1 else 0) = 0 := by simp [hxh2]
            omega
          refine ⟨?_, ?_, ?_, ?_⟩
          · rw [← hsr]
            exact schedInv_advance hIr (Nat.mod_lt _ hNpos)
          · intro x hx0 hxh
            have hxd : x ≠ d := by
              intro hcon
              subst hcon
              omega
            obtain ⟨f1, f2, f3, f4, f5⟩ := hUr x (by rw [hocc1 x hxh hxd]; exact hx0) hxd
            rw [← hsr]
            exact ⟨f1, f2, f3, f4, f5⟩
          · intro p hmem
            rw [← hsr]
            exact hlogr p hmem
          · intro d2 _ hd2
            have : d = d2 := Option.some_injective _ hd2
            subst this
            rw [← hsr]
            exact hmemr


theorem schedInv_clearCell {E : JobEnv} {X : Finset ℕ} {s : Sched} {a b : ℕ}
    (h : SchedInv E X s) (ha : a < E.NumThreads) (hb : b < E.NumThreads) :
    SchedInv E X { s with m_Blocks := updCell s.m_Blocks a b none }
      ∧ (∀ d, s.m_Blocks a b = some d →
          occCount E { s with m_Blocks := updCell s.m_Blocks a b none } d = 0) := by
  obtain ⟨u, dg, pl, isp, ss, ex, mc, ou, lm, nl, cir⟩ := h
  have occ_eq : ∀ x, occCount E { s with m_Blocks := updCell s.m_Blocks a b none } x
      + (if s.m_Blocks a b = some x then 1 else 0) = occCount E s x := by
    intro x
    have := occCount_updCell E s ha hb none x
    have h0 : (if (none : Option ℕ) = some x then 1 else 0) = 0 := by simp
    omega
  have occ_le : ∀ x, occCount E { s with m_Blocks := updCell s.m_Blocks a b none } x
      ≤ occCount E s x := by
    intro x
    have := occ_eq x
    omega
  have hdisp : ∀ d, s.m_Blocks a b = some d →
      occCount E { s with m_Blocks := updCell s.m_Blocks a b none } d = 0 := by
    intro d hd
    have h1 := occ_eq d
    rw [hd] at h1
    have h2 : (if some d = some d then (1:ℕ) else 0) = 1 := by simp
    have h3 := u d
    omega
  refine ⟨⟨?_, ?_, ?_, isp, ss, ?_, ?_, ou, lm, nl, ?_⟩, hdisp⟩
  · intro x
    exact le_trans (occ_le x) (u x)
  · intro x hx
    have hx2 : s.doneF x = true := hx
    have := dg x hx2
    have := occ_le x
    omega
  · intro x hx
    have := pl x (le_trans hx (occ_le x))
    exact this
  · intro x hx
    obtain ⟨e1, e2, e3, e4⟩ := ex x hx
    have := occ_le x
    exact ⟨e1, e2, by omega, e4⟩
  · intro t src k hcell
    have hcell2 : updCell s.m_Blocks a b none t src = some k := hcell
    by_cases hab : t = a ∧ src = b
    · obtain ⟨rfl, rfl⟩ := hab
      rw [updCell_same] at hcell2
      exact absurd hcell2 (Option.noConfusion)
    · rw [updCell_ne _ _ hab] at hcell2
      exact mc t src k hcell2
  · intro t src hout
    have hab : ¬(t = a ∧ src = b) := by
      intro hcon
      rcases hout with hout | hout <;> omega
    show updCell s.m_Blocks a b none t src = none
    rw [updCell_ne _ _ hab]
    exact cir t src hout

theorem schedInv_clearQueue {E : JobEnv} {X : Finset ℕ} {s : Sched}
    (h : SchedInv E X s) :
    SchedInv E X { s with m_MainThreadJobs := [] }
      ∧ (∀ x ∈ s.m_MainThreadJobs,
          occCount E { s with m_MainThreadJobs := [] } x = 0) := by
  obtain ⟨u, dg, pl, isp, ss, ex, mc, ou, lm, nl, cir⟩ := h
  have occ_eq : ∀ x, occCount E { s with m_MainThreadJobs := [] } x
      + s.m_MainThreadJobs.count x = occCount E s x := by
    intro x
    rw [occCount, occCount]
    simp only [List.count_nil]
    omega
  have occ_le : ∀ x, occCount E { s with m_MainThreadJobs := [] } x ≤ occCount E s x := by
    intro x
    have := occ_eq x
    omega
  have hgone : ∀ x ∈ s.m_MainThreadJobs,
      occCount E { s with m_MainThreadJobs := [] } x = 0 := by
    intro x hx
    have h1 : 0 < s.m_MainThreadJobs.count x := List.count_pos_iff.mpr hx
    have h2 := occ_eq x
    have h3 := u x
    omega
  refine ⟨⟨?_, ?_, ?_, isp, ss, ?_, mc, ou, lm, nl, cir⟩, hgone⟩
  · intro x
    exact le_trans (occ_le x) (u x)
  · intro x hx
    have hx2 : s.doneF x = true := hx
    have := dg x hx2
    have := occ_le x
    omega
  · intro x hx
    exact pl x (le_trans hx (occ_le x))
  · intro x hx
    obtain ⟨e1, e2, e3, e4⟩ := ex x hx
    have := occ_le x
    exact ⟨e1, e2, by omega, e4⟩

theorem pjlAux_master (E : JobEnv) (f tid : ℕ) :
    ∀ l s s' b, SchedInv E ∅ s → tid < E.NumThreads → (∀ i ∈ l, i < E.NumThreads) →
      pjlAux E f tid l s = some (s', b) → SchedInv E ∅ s' := by
  intro l
  induction l with
  | nil =>
    intro s s' b hInv _ _ hrun
    rw [pjlAux] at hrun
    have := Option.some_injective _ hrun
    rw [← (Prod.mk.injEq _ _ _ _).mp this |>.1]
    exact hInv
  | cons i rest ihl =>
    intro s s' b hInv htid hl hrun
    have hi : i < E.NumThreads := hl i (List.mem_cons_self i rest)
    rw [pjlAux] at hrun
    rcases hcell : s.m_Blocks tid i with _ | handle
    · rw [hcell] at hrun
      dsimp only at hrun
      have hInv0 : SchedInv E ∅ { s with peeks := s.peeks + 1 } :=
        schedInv_irrelevant hInv rfl rfl rfl rfl rfl rfl rfl rfl rfl rfl
      exact ihl _ s' b hInv0 htid (fun j hj => hl j (List.mem_cons_of_mem i hj)) hrun
    · rw [hcell] at hrun
      dsimp only at hrun
      obtain ⟨hInvCC, hdisp⟩ := schedInv_clearCell hInv htid hi
      have hInv1 : SchedInv E ∅
          { s with m_Blocks := updCell s.m_Blocks tid i none, peeks := s.peeks + 1 } :=
        schedInv_irrelevant hInvCC rfl rfl rfl rfl rfl rfl rfl rfl rfl rfl
      have hocc1 : 1 ≤ occCount E s handle := one_le_occCount_of_cell E s htid hi hcell
      obtain ⟨hhnd, hhp, hhM⟩ := hInv.placedLive handle hocc1
      have hhm : E.m_IsMainThread handle = false := hInv.mainNotInCells _ _ _ hcell
      have hocc0 : occCount E
          { s with m_Blocks := updCell s.m_Blocks tid i none, peeks := s.peeks + 1 }
          handle = 0 := hdisp handle hcell
      rcases hrc : ResumeCoroutineF E f tid handle
          { s with m_Blocks := updCell s.m_Blocks tid i none, peeks := s.peeks + 1 }
        with _ | s2
      · rw [hrc] at hrun
        dsimp only at hrun
        exact absurd hrun (Option.noConfusion)
      · rw [hrc] at hrun
        dsimp only at hrun
        have hs2 := Option.some_injective _ hrun
        obtain ⟨hs2a, _⟩ := (Prod.mk.injEq _ _ _ _).mp hs2
        obtain ⟨hI, _, _, _⟩ := (rcPushMasters E f).1 tid handle _ s2 ∅ hInv1 htid hhM
          (Finset.not_mem_empty handle) hhnd hhp hocc0
          (fun hcon => by rw [hhm] at hcon; exact absurd hcon Bool.false_ne_true) hrc
        rw [← hs2a]
        exact hI

theorem processJobList_master {E : JobEnv} {f tid : ℕ} {s s' : Sched} {b : Bool}
    (hInv : SchedInv E ∅ s) (htid : tid < E.NumThreads)
    (hrun : ProcessJobListF E f tid s = some (s', b)) : SchedInv E ∅ s' := by
  refine pjlAux_master E f tid (List.range E.NumThreads) s s' b hInv htid ?_ hrun
  intro i hi
  exact List.mem_range.mp hi

theorem drainAux_master (E : JobEnv) (f : ℕ) (hN : 0 < E.NumThreads) :
    ∀ q s s', SchedInv E ∅ s → q.Nodup →
      (∀ x ∈ q, x < E.MaxTask ∧ occCount E s x = 0 ∧ s.doneF x = false ∧ 1 ≤ s.pending x) →
      drainAux E f q s = some s' → SchedInv E ∅ s' := by
  intro q
  induction q with
  | nil =>
    intro s s' hInv _ _ hrun
    rw [drainAux] at hrun
    rw [← Option.some_injective _ hrun]
    exact hInv
  | cons x rest ihq =>
    intro s s' hInv hnd hfacts hrun
    obtain ⟨hxM, hxocc, hxnd, hxp⟩ := hfacts x (List.mem_cons_self x rest)
    rw [drainAux] at hrun
    rcases hrc : ResumeCoroutineF E f 0 x s with _ | s1
    · rw [hrc] at hrun
      exact absurd hrun (Option.noConfusion)
    · rw [hrc] at hrun
      obtain ⟨hI1, hUt, _, _⟩ := (rcPushMasters E f).1 0 x s s1 ∅ hInv hN hxM
        (Finset.not_mem_empty x) hxnd hxp hxocc (fun _ => rfl) hrc
      refine ihq s1 s' hI1 (List.Nodup.of_cons hnd) ?_ hrun
      intro y hy
      obtain ⟨hyM, hyocc, hynd, hyp⟩ := hfacts y (List.mem_cons_of_mem x hy)
      have hyx : y ≠ x := by
        intro hcon
        subst hcon
        exact (List.nodup_cons.mp hnd).1 hy
      obtain ⟨g1, g2, _, _, g5⟩ := hUt y hyocc hyx
      refine ⟨hyM, g5, ?_, ?_⟩
      · rw [g1]
        exact hynd
      · rw [g2]
        exact hyp

theorem drainMain_master {E : JobEnv} {f : ℕ} {s s' : Sched}
    (hInv : SchedInv E ∅ s) (hN : 0 < E.NumThreads)
    (hrun : drainMainF E f s = some s') : SchedInv E ∅ s' := by
  rw [drainMainF] at hrun
  obtain ⟨hInv0, hgone⟩ := schedInv_clearQueue hInv
  have hnd : s.m_MainThreadJobs.Nodup := by
    rw [List.nodup_iff_count_le_one]
    intro a
    have h1 := hInv.uniq a
    rw [occCount] at h1
    omega
  refine drainAux_master E f hN s.m_MainThreadJobs _ s' hInv0 hnd ?_ hrun
  intro x hx
  obtain ⟨hxnd, hxp, hxM⟩ := hInv.placedLive x (one_le_occCount_of_queue E s hx)
  refine ⟨hxM, hgone x hx, hxnd, hxp⟩

theorem runJobsF_master (E : JobEnv) :
    ∀ f me target s s', SchedInv E ∅ s → me < E.NumThreads →
      RunJobsF E f me target s = some s' →
      SchedInv E ∅ s' ∧ completionSum E s' me = target := by
  intro f
  induction f with
  | zero =>
    intro me target s s' _ _ hrun
    rw [RunJobsF] at hrun
    exact absurd hrun (Option.noConfusion)
  | succ f ihf =>
    intro me target s s' hInv hme hrun
    have hN : 0 < E.NumThreads := lt_of_le_of_lt (Nat.zero_le me) hme
    rw [RunJobsF] at hrun
    rcases hpjl : ProcessJobListF E f me s with _ | sb
    · rw [hpjl] at hrun
      exact absurd hrun (Option.noConfusion)
    · rw [hpjl] at hrun
      obtain ⟨s1, b⟩ := sb
      dsimp only at hrun
      have hInv1 : SchedInv E ∅ s1 := processJobList_master hInv hme hpjl
      rcases hdr : (if me = 0 then drainMainF E f s1 else some s1) with _ | s2
      · rw [hdr] at hrun
        dsimp only at hrun
        exact absurd hrun (Option.noConfusion)
      · rw [hdr] at hrun
        dsimp only at hrun
        have hInv2 : SchedInv E ∅ s2 := by
          by_cases hme0 : me = 0
          · rw [if_pos hme0] at hdr
            exact drainMain_master hInv1 hN hdr
          · rw [if_neg hme0] at hdr
            rw [← Option.some_injective _ hdr]
            exact hInv1
        by_cases hsum : completionSum E s2 me = target
        · rw [if_pos hsum] at hrun
          rw [← Option.some_injective _ hrun]
          exact ⟨hInv2, hsum⟩
        · rw [if_neg hsum] at hrun
          exact ihf me target s2 s' hInv2 hme hrun

theorem stepR_preserves {E : JobEnv} {s s2 : Sched}
    (hInv : Inv E s) (hstep : StepR E s s2) : Inv E s2 := by
  cases hstep with
  | proc f t s s2 found ht hrun =>
    exact processJobList_master hInv ht hrun
  | drain f s s2 hN hrun =>
    exact drainMain_master hInv hN hrun
  | push f t h s s2 ht hM hocc hnd hp hm hrun =>
    obtain ⟨hI, _, _, _⟩ := (rcPushMasters E f).2 t h s s2 ∅ hInv ht hM
      (Finset.not_mem_empty h) hnd hp hocc hm hrun
    exact hI
  | pushMain h s hM hocc hnd hp hm =>
    exact schedInv_enqueue hInv hocc hM hnd hp (Finset.not_mem_empty h)

theorem stepsR_preserves {E : JobEnv} {s s2 : Sched}
    (hInv : Inv E s) (hsteps : StepsR E s s2) : Inv E s2 := by
  induction hsteps with
  | refl => exact hInv
  | tail _ hstep ih => exact stepR_preserves ih hstep


/-- When the waiting thread observes its completion sum equal to the
number of tracked tasks, every tracked task is done, every tracked
task was counted exactly once, and the full counter sum over all
thread indices equals the task count. -/
theorem completion_target_reached {E : JobEnv} {s' : Sched} {me : ℕ}
    (hInv : Inv E s') (hsum : completionSum E s' me = trackedCard E) :
    fullSum E s' = trackedCard E ∧
    (∀ c, c < E.MaxTask → E.m_IncrementCounters c = true →
      s'.incr c = 1 ∧ s'.doneF c = true) ∧
    (∀ c, s'.incr c ≤ 1) := by
  have hind : ∀ c ∈ Finset.range E.MaxTask, s'.incr c
      = (if s'.doneF c = true ∧ E.m_IncrementCounters c = true then 1 else 0) :=
    fun c _ => hInv.incrSpec c (Finset.not_mem_empty c)
  have hD : (∑ c ∈ Finset.range E.MaxTask, s'.incr c)
      = ∑ c ∈ Finset.range E.MaxTask,
          (if s'.doneF c = true ∧ E.m_IncrementCounters c = true then 1 else 0) :=
    Finset.sum_congr rfl hind
  have hle : ∀ c ∈ Finset.range E.MaxTask,
      (if s'.doneF c = true ∧ E.m_IncrementCounters c = true then 1 else 0)
        ≤ (if E.m_IncrementCounters c = true then (1:ℕ) else 0) := by
    intro c _
    split_ifs with h1 h2
    · exact le_refl 1
    · exact absurd h1.2 h2
    · exact Nat.zero_le 1
    · exact le_refl 0
  have htc : trackedCard E
      = ∑ c ∈ Finset.range E.MaxTask, (if E.m_IncrementCounters c = true then 1 else 0) := by
    rw [trackedCard, Finset.card_filter]
  have hcsle : completionSum E s' me ≤ fullSum E s' := by
    rw [completionSum, fullSum]
    refine Finset.sum_le_sum ?_
    intro i _
    split_ifs <;> omega
  have hfull : fullSum E s' = trackedCard E := by
    have hub : fullSum E s' ≤ trackedCard E := by
      rw [hInv.sumSpec, hD, htc]
      exact Finset.sum_le_sum hle
    have hlb : trackedCard E ≤ fullSum E s' := by
      rw [← hsum]
      exact hcsle
    omega
  have hpt : ∀ c ∈ Finset.range E.MaxTask,
      (if s'.doneF c = true ∧ E.m_IncrementCounters c = true then 1 else 0)
        = (if E.m_IncrementCounters c = true then (1:ℕ) else 0) := by
    refine (Finset.sum_eq_sum_iff_of_le hle).mp ?_
    rw [← hD, ← hInv.sumSpec, hfull, htc]
  refine ⟨hfull, ?_, ?_⟩
  · intro c hcM htr
    have h1 := hpt c (Finset.mem_range.mpr hcM)
    rw [if_pos htr] at h1
    have hdone : s'.doneF c = true := by
      by_cases hdc : s'.doneF c = true
      · exact hdc
      · rw [if_neg (fun hcon => hdc hcon.1)] at h1
        exact absurd h1 (by omega)
    refine ⟨?_, hdone⟩
    rw [hInv.incrSpec c (Finset.not_mem_empty c), if_pos ⟨hdone, htr⟩]
  · intro c
    rw [hInv.incrSpec c (Finset.not_mem_empty c)]
    split_ifs <;> omega

/-- C1: for a batch of trackedCard E tasks attached to one tracking
block, once RunJobs (the loop behind WaitForCompletion) returns, the
sum of the local and remote counters over all thread indices equals
the batch size, and each completed tracked task was counted exactly
once (its ghost increment count is 1, and no task is ever counted
twice). -/
theorem exactly_once_completion {E : JobEnv} {f me : ℕ} {s s' : Sched}
    (hInv : Inv E s) (hme : me < E.NumThreads)
    (hrun : RunJobsF E f me (trackedCard E) s = some s') :
    fullSum E s' = trackedCard E ∧
    (∀ c, c < E.MaxTask → E.m_IncrementCounters c = true →
      s'.incr c = 1 ∧ s'.doneF c = true) ∧
    (∀ c, s'.incr c ≤ 1) := by
  obtain ⟨hI, hsum⟩ := runJobsF_master E f me (trackedCard E) s s' hInv hme hrun
  exact completion_target_reached hI hsum

/-- Contract of the RunJobs loop: it returns exactly when the
completion sum it computes equals the target, and when the target is
the number of tracked tasks, every one of those tasks is done at
return. -/
theorem runJobs_loop_contract {E : JobEnv} {f me target : ℕ} {s s' : Sched}
    (hInv : Inv E s) (hme : me < E.NumThreads)
    (hrun : RunJobsF E f me target s = some s') :
    completionSum E s' me = target ∧
    (target = trackedCard E → ∀ c, c < E.MaxTask → E.m_IncrementCounters c = true →
      s'.doneF c = true) := by
  obtain ⟨hI, hsum⟩ := runJobsF_master E f me target s s' hInv hme hrun
  refine ⟨hsum, ?_⟩
  intro htarget c hcM htr
  have := completion_target_reached hI (htarget ▸ hsum)
  exact (this.2.1 c hcM htr).2

/-- C3 (amended): RunJobs returns exactly when the completion sum it
computes (local counter for the calling thread index, remote counter
for every other index) equals the target, and when the target is the
number of tracked tasks of the Job List, every one of those tasks has
reached Completed at return; but the calling thread can block while
waiting: the thread-0 drain holds m_MainThreadJobMutex across its
ResumeCoroutine calls (JobManagerImpl.cpp line 113), so whenever the
first drained resume routes a continuation through PushMainThreadJob
(observable as queue growth, the re-lock of line 101), the
lock-faithful drain ends in the blocksOnMutex outcome, where the
source's calling thread blocks on the re-entered non-recursive
mutex. -/
theorem runJobs_contract_and_drain_blocking {E : JobEnv} {f me target : ℕ} {s s' : Sched}
    (hInv : Inv E s) (hme : me < E.NumThreads)
    (hrun : RunJobsF E f me target s = some s') :
    (completionSum E s' me = target ∧
      (target = trackedCard E → ∀ c, c < E.MaxTask → E.m_IncrementCounters c = true →
        s'.doneF c = true)) ∧
    (∀ (E2 : JobEnv) (f2 h : ℕ) (rest : List ℕ) (s0 s1 : Sched),
      s0.m_MainThreadJobs = h :: rest →
      ResumeCoroutineF E2 f2 0 h { s0 with m_MainThreadJobs := [] } = some s1 →
      s1.m_MainThreadJobs ≠ [] →
      drainMainLockedF E2 f2 s0 = some (DrainOutcome.blocksOnMutex s1)) := by
  refine ⟨runJobs_loop_contract hInv hme hrun, ?_⟩
  intro E2 f2 h rest s0 s1 hq hrc hne
  rw [drainMainLockedF, hq, drainLockedAux, hrc]
  dsimp only
  have hcond : s1.m_MainThreadJobs.length
      ≠ ({ s0 with m_MainThreadJobs := ([] : List ℕ) } : Sched).m_MainThreadJobs.length := by
    show s1.m_MainThreadJobs.length ≠ 0
    intro hcon
    exact hne (List.length_eq_zero.mp hcon)
  rw [if_pos hcond]

/-- C6: over any interleaved execution of the scheduler, every
recorded resume of a main-thread-affine task happened on thread 0. -/
theorem main_thread_affinity {E : JobEnv} {s0 s : Sched}
    (hInv : Inv E s0) (hsteps : StepsR E s0 s) :
    ∀ t c, (t, c) ∈ s.resumeLog → E.m_IsMainThread c = true → t = 0 := by
  have hI := stepsR_preserves hInv hsteps
  intro t c hmem hm
  exact hI.logMain (t, c) hmem hm

/-- C4: PushJob keeps every task held in at most one place (so each
mailbox cell holds at most one pending task and nothing is lost), and
when the exchange displaces a still-pending handle, the posting thread
itself resumes the displaced task. -/
theorem pushJob_displacement {E : JobEnv} {f me h : ℕ} {s s' : Sched}
    (hInv : Inv E s) (hme : me < E.NumThreads) (hN : E.NumThreads ≠ 1)
    (hhM : h < E.MaxTask) (hocc : occCount E s h = 0) (hnd : s.doneF h = false)
    (hp : 1 ≤ s.pending h) (hm : E.m_IsMainThread h = false)
    (hrun : PushJobF E f me h s = some s') :
    Inv E s' ∧ (∀ k, occCount E s' k ≤ 1) ∧
    (∀ d, s.m_Blocks (s.g_NextJobID me) me = some d → (me, d) ∈ s'.resumeLog) := by
  obtain ⟨hI, _, _, hdisp⟩ := (rcPushMasters E f).2 me h s s' ∅ hInv hme hhM
    (Finset.not_mem_empty h) hnd hp hocc hm hrun
  exact ⟨hI, hI.uniq, fun d hd => hdisp d hN hd⟩

theorem pjlAux_empty (E : JobEnv) (f tid : ℕ) :
    ∀ l (s : Sched), (∀ i ∈ l, s.m_Blocks tid i = none) →
      pjlAux E f tid l s = some ({ s with peeks := s.peeks + l.length }, false) := by
  intro l
  induction l with
  | nil =>
    intro s _
    rw [pjlAux]
    rfl
  | cons i rest ihl =>
    intro s hl
    rw [pjlAux, hl i (List.mem_cons_self i rest)]
    have hrec := ihl { s with peeks := s.peeks + 1 }
      (fun j hj => hl j (List.mem_cons_of_mem i hj))
    rw [hrec]
    show some ({ s with peeks := s.peeks + 1 + rest.length }, false)
      = some ({ s with peeks := s.peeks + (i :: rest).length }, false)
    rw [show s.peeks + 1 + rest.length = s.peeks + (i :: rest).length by
      rw [List.length_cons]
      omega]

/-- C7 (amended): RunJobs with completion target 0 returns after a
single pass of its loop; that pass does scan the whole mailbox row of
the calling thread (one check load per cell), so the return is
immediate but not scan-free. -/
theorem empty_wait_single_pass {E : JobEnv} {me : ℕ} {s : Sched}
    (hrow : ∀ i, s.m_Blocks me i = none) (hq : me = 0 → s.m_MainThreadJobs = [])
    (hsum : completionSum E s me = 0) :
    ∃ s', RunJobsF E 1 me 0 s = some s'
      ∧ s'.peeks = s.peeks + E.NumThreads ∧ completionSum E s' me = 0 := by
  have hpjl : ProcessJobListF E 0 me s
      = some ({ s with peeks := s.peeks + E.NumThreads }, false) := by
    rw [ProcessJobListF, pjlAux_empty E 0 me (List.range E.NumThreads) s
      (fun i _ => hrow i), List.length_range]
  by_cases hme0 : me = 0
  · have hdr : drainMainF E 0 { s with peeks := s.peeks + E.NumThreads }
        = some { s with m_MainThreadJobs := [], peeks := s.peeks + E.NumThreads } := by
      rw [drainMainF]
      have hq0 : ({ s with peeks := s.peeks + E.NumThreads } : Sched).m_MainThreadJobs = [] :=
        hq hme0
      rw [hq0]
      rw [drainAux]
    refine ⟨{ s with m_MainThreadJobs := [], peeks := s.peeks + E.NumThreads },
      ?_, rfl, hsum⟩
    rw [show (1:ℕ) = 0 + 1 from rfl, RunJobsF, hpjl]
    dsimp only
    rw [if_pos hme0, hdr]
    dsimp only
    rw [if_pos (show completionSum E
        { s with m_MainThreadJobs := [], peeks := s.peeks + E.NumThreads } me = 0 from hsum)]
  · refine ⟨{ s with peeks := s.peeks + E.NumThreads }, ?_, rfl, hsum⟩
    rw [show (1:ℕ) = 0 + 1 from rfl, RunJobsF, hpjl]
    dsimp only
    rw [if_neg hme0]
    dsimp only
    rw [if_pos (show completionSum E
        { s with peeks := s.peeks + E.NumThreads } me = 0 from hsum)]

/-- C2 (amended): when ResumeCoroutine completes a tracked task, the
counter it bumps is indexed by the current (completing) thread: the
local counter at the current thread index when the current thread owns
the task, the remote counter at the current thread index (not at the
owning thread index) otherwise.  All other indices are untouched. -/
theorem completion_counter_current_thread {E : JobEnv} {f me c : ℕ} {s s' : Sched}
    (hpend : s.pending c = 1) (htr : E.m_IncrementCounters c = true)
    (hrh : s.m_ResumeHandle c = none)
    (hrun : ResumeCoroutineF E (f + 1) me c s = some s') :
    (E.m_OwningThread c = me →
      s'.m_LocalCount me = s.m_LocalCount me + 1
        ∧ (∀ t, t ≠ me → s'.m_LocalCount t = s.m_LocalCount t)
        ∧ s'.m_RemoteCount = s.m_RemoteCount) ∧
    (E.m_OwningThread c ≠ me →
      s'.m_RemoteCount me = s.m_RemoteCount me + 1
        ∧ (∀ t, t ≠ me → s'.m_RemoteCount t = s.m_RemoteCount t)
        ∧ s'.m_LocalCount = s.m_LocalCount) := by
  rw [rc_succ_none hrh] at hrun
  have hs' : s' = completeRC E me c (resumeOnce me c s) :=
    (Option.some_injective _ hrun).symm
  subst hs'
  have hdone : (resumeOnce me c s).doneF c = true := by
    rw [resumeOnce_doneF_self, hpend]
    rfl
  rw [completeRC, if_pos hdone, if_pos htr]
  constructor
  · intro how
    rw [if_pos how]
    by_cases hrv : E.m_ReturnVoid c = true
    · rw [if_pos hrv]
      exact ⟨updFn_same _ _ _, fun t ht => updFn_ne _ _ ht, rfl⟩
    · rw [if_neg hrv]
      exact ⟨updFn_same _ _ _, fun t ht => updFn_ne _ _ ht, rfl⟩
  · intro how
    rw [if_neg how]
    by_cases hrv : E.m_ReturnVoid c = true
    · rw [if_pos hrv]
      exact ⟨updFn_same _ _ _, fun t ht => updFn_ne _ _ ht, rfl⟩
    · rw [if_neg hrv]
      exact ⟨updFn_same _ _ _, fun t ht => updFn_ne _ _ ht, rfl⟩

/-- C5 (amended): each worker thread spawned by JobMain seeds its
round-robin counter to (tid + 1) mod N, which never equals its own id,
but the constructor seeds thread 0 to 0, so thread 0 first targets
itself; and PushJob deposits the handle into mailbox cell
[g_NextJobID me][me] and then advances the counter modulo NumThreads. -/
theorem roundRobin_seed_amended :
    ctorSeedNextJobID = 0 ∧
    (∀ n tid : ℕ, 2 ≤ n → 1 ≤ tid → tid < n → jobMainSeedNextJobID n tid ≠ tid) ∧
    (∀ (E : JobEnv) (f me h : ℕ) (s : Sched), E.NumThreads ≠ 1 →
      s.m_Blocks (s.g_NextJobID me) me = none →
      ∃ s', PushJobF E (f + 1) me h s = some s'
        ∧ s'.m_Blocks (s.g_NextJobID me) me = some h
        ∧ s'.g_NextJobID me = (s.g_NextJobID me + 1) % E.NumThreads) := by
  refine ⟨rfl, ?_, ?_⟩
  · intro n tid hn h1 h2
    rw [jobMainSeedNextJobID]
    rcases Nat.lt_or_ge (tid + 1) n with hlt | hge
    · rw [Nat.mod_eq_of_lt hlt]
      omega
    · have heq : tid + 1 = n := by omega
      rw [heq, Nat.mod_self]
      omega
  · intro E f me h s hN hd
    refine ⟨_, push_succ_empty hN hd, ?_, ?_⟩
    · show updCell s.m_Blocks (s.g_NextJobID me) me (some h) (s.g_NextJobID me) me = some h
      exact updCell_same _ _ _ _
    · show updFn s.g_NextJobID me ((s.g_NextJobID me + 1) % E.NumThreads) me = _
      exact updFn_same _ _ _

/-- C8 (amended): with more than one pool thread, PushJob outside a
running session hits assert(m_Running), as does PushMainThreadJob on
any configuration; with NumThreads = 1 PushJob takes the constexpr
inline-resume branch and never reaches the assertion. -/
theorem push_assert_amended {n : ℕ} (hn : 2 ≤ n) :
    pushJobAssertCheck n false = PushOutcome.fatalAssert ∧
    pushMainThreadJobAssertCheck false = PushOutcome.fatalAssert ∧
    pushJobAssertCheck 1 false = PushOutcome.proceeds := by
  refine ⟨?_, rfl, rfl⟩
  rw [pushJobAssertCheck, if_neg (by omega : ¬n = 1)]
  rfl

/-- A spawn loop that never throws emplaces every remaining worker. -/
theorem ctorSpawnAux_none : ∀ (l : List ℕ) (spawned : ℕ),
    ctorSpawnAux none spawned l = CtorOutcome.constructed (spawned + l.length) := by
  intro l
  induction l with
  | nil =>
    intro spawned
    rfl
  | cons i rest ih =>
    intro spawned
    rw [ctorSpawnAux, if_neg (fun hcon : (none : Option ℕ) = some i => Option.noConfusion hcon)]
    rw [ih (spawned + 1)]
    have hlen : spawned + 1 + rest.length = spawned + (i :: rest).length := by
      rw [List.length_cons]
      omega
    rw [hlen]

/-- A spawn loop whose iteration j throws: every earlier iteration
spawned a worker, and the throw propagates only when none did. -/
theorem ctorSpawnAux_throw : ∀ (len s spawned j : ℕ), s ≤ j → j < s + len →
    ctorSpawnAux (some j) spawned (List.range' s len)
      = (if spawned + (j - s) = 0 then CtorOutcome.threw
         else CtorOutcome.terminated (spawned + (j - s))) := by
  intro len
  induction len with
  | zero =>
    intro s spawned j h1 h2
    exact absurd h2 (by omega)
  | succ len ih =>
    intro s spawned j h1 h2
    rw [show List.range' s (len + 1) = s :: List.range' (s + 1) len from rfl]
    rw [ctorSpawnAux]
    by_cases hj : j = s
    · subst hj
      rw [if_pos rfl]
      simp [Nat.sub_self]
    · rw [if_neg (fun hcon : some j = some s => hj (Option.some.inj hcon))]
      rw [ih (s + 1) (spawned + 1) j (by omega) (by omega)]
      have hv : spawned + 1 + (j - (s + 1)) = spawned + (j - s) := by omega
      rw [hv]

/-- A constructor that never throws spawns all NumThreads - 1
workers. -/
theorem jobManagerCtor_none (nt : ℕ) :
    JobManagerCtorF nt none = CtorOutcome.constructed (nt - 1) := by
  rw [JobManagerCtorF, ctorSpawnAux_none, List.length_range', Nat.zero_add]

/-- A throw at the very first thread creation propagates out of the
constructor: m_Threads is still empty. -/
theorem jobManagerCtor_throw_first {nt : ℕ} (h : 2 ≤ nt) :
    JobManagerCtorF nt (some 1) = CtorOutcome.threw := by
  rw [JobManagerCtorF, ctorSpawnAux_throw (nt - 1) 1 0 1 (le_refl 1) (by omega)]
  simp

/-- A throw at a later thread creation unwinds j - 1 joinable
std::threads and the process terminates. -/
theorem jobManagerCtor_throw_late {nt j : ℕ} (h2 : 2 ≤ j) (hlt : j < nt) :
    JobManagerCtorF nt (some j) = CtorOutcome.terminated (j - 1) := by
  rw [JobManagerCtorF, ctorSpawnAux_throw (nt - 1) 1 0 j (by omega) (by omega)]
  rw [if_neg (by omega : ¬(0 + (j - 1) = 0)), Nat.zero_add]

/-- Reduction of CreateJobManager with no singleton and no allocation
throw: the result is decided by the constructor outcome. -/
theorem createFull_none_noalloc (nt : ℕ) (ta : Option ℕ) (n : ℕ) :
    CreateJobManagerFullF nt false ta (none, n)
      = (match JobManagerCtorF nt ta with
         | CtorOutcome.constructed _ => ((some (), n + 1), some true)
         | CtorOutcome.threw => ((none, n), some false)
         | CtorOutcome.terminated _ => ((none, n), none)) := rfl

/-- A returning call lets the call sequence continue on the new
state. -/
theorem createCallsF_cons (nt : ℕ) (c : Bool × Option ℕ) (rest : List (Bool × Option ℕ))
    (st st2 : Option Unit × ℕ) (b : Bool)
    (h : CreateJobManagerFullF nt c.1 c.2 st = (st2, some b)) :
    createCallsF nt (c :: rest) st = createCallsF nt rest st2 := by
  simp only [createCallsF, h]

/-- A call that terminates the process ends the call sequence. -/
theorem createCallsF_cons_dead (nt : ℕ) (c : Bool × Option ℕ) (rest : List (Bool × Option ℕ))
    (st st2 : Option Unit × ℕ)
    (h : CreateJobManagerFullF nt c.1 c.2 st = (st2, none)) :
    createCallsF nt (c :: rest) st = st2 := by
  simp only [createCallsF, h]

/-- C9 (amended): CreateJobManager is idempotent: a call with the
singleton already constructed returns success without reconstructing,
a completed construction installs the singleton exactly once, and over
any sequence of calls the constructor runs at most once.  A throwing
construction returns failure with no partial singleton only when the
throw precedes every worker spawn (the MakeUnique allocation, or the
very first std::thread creation); when thread creation throws after a
worker was already spawned the call never returns at all — unwinding
destroys joinable std::threads and the process std::terminates
(JobManagerImpl.cpp lines 43-46). -/
theorem createJobManager_outcomes :
    (∀ (nt : ℕ) (a : Bool) (ta : Option ℕ) (u : Unit) (n : ℕ),
      CreateJobManagerFullF nt a ta (some u, n) = ((some u, n), some true)) ∧
    (∀ (nt n : ℕ),
      CreateJobManagerFullF nt false none (none, n) = ((some (), n + 1), some true)) ∧
    (∀ (nt : ℕ) (ta : Option ℕ) (n : ℕ),
      CreateJobManagerFullF nt true ta (none, n) = ((none, n), some false)) ∧
    (∀ (nt n : ℕ), 2 ≤ nt →
      CreateJobManagerFullF nt false (some 1) (none, n) = ((none, n), some false)) ∧
    (∀ (nt j n : ℕ), 2 ≤ j → j < nt →
      CreateJobManagerFullF nt false (some j) (none, n) = ((none, n), none)) ∧
    (∀ (nt : ℕ) (calls : List (Bool × Option ℕ)),
      (createCallsF nt calls (none, 0)).2 ≤ 1) := by
  refine ⟨fun nt a ta u n => rfl, ?_, fun nt ta n => rfl, ?_, ?_, ?_⟩
  · intro nt n
    rw [createFull_none_noalloc, jobManagerCtor_none]
  · intro nt n h
    rw [createFull_none_noalloc, jobManagerCtor_throw_first h]
  · intro nt j n h2 hlt
    rw [createFull_none_noalloc, jobManagerCtor_throw_late h2 hlt]
  · intro nt calls
    have haux : ∀ (calls : List (Bool × Option ℕ)) (g : Option Unit) (n : ℕ),
        (g = none → n = 0) → n ≤ 1 → (createCallsF nt calls (g, n)).2 ≤ 1 := by
      intro calls
      induction calls with
      | nil =>
        intro g n _ hn
        exact hn
      | cons c rest ih =>
        intro g n hg hn
        rcases g with _ | u
        · have hn0 : n = 0 := hg rfl
          subst hn0
          rcases c with ⟨a, ta⟩
          rcases a with _ | _
          · rcases hc : JobManagerCtorF nt ta with k | _ | k
            · rw [createCallsF_cons nt (false, ta) rest (none, 0) (some (), 1) true
                (by show CreateJobManagerFullF nt false ta (none, 0) = _
                    rw [createFull_none_noalloc, hc])]
              exact ih (some ()) 1 (fun hcon => Option.noConfusion hcon) (le_refl 1)
            · rw [createCallsF_cons nt (false, ta) rest (none, 0) (none, 0) false
                (by show CreateJobManagerFullF nt false ta (none, 0) = _
                    rw [createFull_none_noalloc, hc])]
              exact ih none 0 (fun _ => rfl) (by omega)
            · rw [createCallsF_cons_dead nt (false, ta) rest (none, 0) (none, 0)
                (by show CreateJobManagerFullF nt false ta (none, 0) = _
                    rw [createFull_none_noalloc, hc])]
              exact Nat.zero_le 1
          · rw [createCallsF_cons nt (true, ta) rest (none, 0) (none, 0) false rfl]
            exact ih none 0 (fun _ => rfl) (by omega)
        · rw [createCallsF_cons nt c rest (some u, n) (some u, n) true rfl]
          exact ih (some u) n (fun hcon => Option.noConfusion hcon) hn
    exact haux calls none 0 (fun _ => rfl) (by omega)

/-- C10: on a thread never registered by the JobManager constructor or
by JobMain, the thread-local id still holds its initializer, so
GetThreadId returns -1, which differs from every valid id 0..N-1. -/
theorem getThreadId_unregistered :
    GetThreadIdF none = -1 ∧ gThreadIDInit = -1 ∧
    ∀ k : ℕ, GetThreadIdF none ≠ (k : ℤ) := by
  refine ⟨rfl, rfl, ?_⟩
  intro k
  show gThreadIDInit ≠ (k : ℤ)
  rw [gThreadIDInit]
  omega

/-- Packaging of the invariant for idle-style concrete states: all
flags at their zero-initialized values. -/
theorem inv_of_flags (E : JobEnv) (s : Sched)
    (hdone : s.doneF = fun _ => false)
    (hrh : s.m_ResumeHandle = fun _ => none)
    (hincr : s.incr = fun _ => 0)
    (hlog : s.resumeLog = [])
    (hsum0 : fullSum E s = 0)
    (hnext : ∀ t, t < E.NumThreads → s.g_NextJobID t < E.NumThreads)
    (hcells : ∀ t src, E.NumThreads ≤ t ∨ E.NumThreads ≤ src → s.m_Blocks t src = none)
    (hmc : ∀ t src k, s.m_Blocks t src = some k → E.m_IsMainThread k = false)
    (huniq : ∀ k, occCount E s k ≤ 1)
    (hlive : ∀ k, 1 ≤ occCount E s k → 1 ≤ s.pending k ∧ k < E.MaxTask) :
    Inv E s := by
  refine ⟨huniq, ?_, ?_, ?_, ?_, ?_, hmc, ?_, ?_, hnext, hcells⟩
  · intro k hk
    rw [hdone] at hk
    exact absurd hk Bool.false_ne_true
  · intro k hk
    refine ⟨by rw [hdone], (hlive k hk).1, (hlive k hk).2⟩
  · intro x _
    rw [hincr, hdone]
    simp
  · rw [hsum0, hincr]
    simp
  · intro x hx
    exact absurd hx (Finset.not_mem_empty x)
  · intro c _
    exact ⟨by rw [hrh], by rw [hdone]⟩
  · intro p hp
    rw [hlog] at hp
    exact absurd hp (List.not_mem_nil p)

theorem occ_stateT : ∀ k, occCount envT stateT k = if k = 0 then 1 else 0 := by
  intro k
  rcases k with _ | k
  · rfl
  · rw [if_neg (by omega : ¬(k + 1) = 0)]
    rw [occCount, cellCount, regCount]
    simp [stateT, envT, Finset.sum_product, Finset.sum_range_one]

theorem inv_stateT : Inv envT stateT := by
  refine inv_of_flags envT stateT rfl rfl rfl rfl (by rfl) ?_ ?_ ?_ ?_ ?_
  · intro t ht
    exact Nat.zero_lt_one
  · intro t src hout
    have hout1 : 1 ≤ t ∨ 1 ≤ src := hout
    show (if t = 0 ∧ src = 0 then some 0 else none) = none
    rw [if_neg]
    intro hcon
    rcases hout1 with hout1 | hout1 <;> omega
  · intro t src k hcell
    rfl
  · intro k
    rw [occ_stateT k]
    split_ifs <;> omega
  · intro k hk
    rw [occ_stateT k] at hk
    by_cases hk0 : k = 0
    · subst hk0
      exact ⟨by decide, by decide⟩
    · rw [if_neg hk0] at hk
      omega

theorem occ_stateB : ∀ k, occCount envB stateB k = if k = 1 then 1 else 0 := by
  intro k
  rcases hk : decide (k = 1) with hd | hd
  · have hk1 : ¬k = 1 := of_decide_eq_false hk
    have hk2 : ¬(1 = k) := fun h => hk1 h.symm
    rw [if_neg hk1]
    simp only [occCount, cellCount, regCount, Finset.sum_product,
      Finset.sum_range_succ, Finset.sum_range_zero, stateB]
    simp [hk2]
  · have hk1 : k = 1 := of_decide_eq_true hk
    subst hk1
    rfl

theorem inv_stateB : Inv envB stateB := by
  refine inv_of_flags envB stateB rfl rfl rfl rfl (by rfl) ?_ ?_ ?_ ?_ ?_
  · intro t ht
    show (if t = 0 then 1 else 0) < 2
    split_ifs <;> decide
  · intro t src hout
    have hout1 : 2 ≤ t ∨ 2 ≤ src := hout
    show (if t = 1 ∧ src = 0 then some 1 else none) = none
    rw [if_neg]
    intro hcon
    rcases hout1 with hout1 | hout1 <;> omega
  · intro t src k hcell
    rfl
  · intro k
    rw [occ_stateB k]
    split_ifs <;> omega
  · intro k hk
    rw [occ_stateB k] at hk
    by_cases hk1 : k = 1
    · subst hk1
      exact ⟨by decide, by decide⟩
    · rw [if_neg hk1] at hk
      omega

theorem occ_stateC : ∀ k, occCount envC stateC k = if k = 0 then 1 else 0 := by
  intro k
  rcases k with _ | k
  · rfl
  · rw [if_neg (by omega : ¬(k + 1) = 0)]
    rw [occCount, cellCount, regCount]
    simp [stateC, envC, Finset.sum_product, Finset.sum_range_one, List.count_singleton]

theorem inv_stateC : Inv envC stateC := by
  refine inv_of_flags envC stateC rfl rfl rfl rfl (by rfl) ?_ ?_ ?_ ?_ ?_
  · intro t ht
    exact Nat.zero_lt_one
  · intro t src _
    rfl
  · intro t src k hcell
    exact absurd hcell (Option.noConfusion)
  · intro k
    rw [occ_stateC k]
    split_ifs <;> omega
  · intro k hk
    rw [occ_stateC k] at hk
    by_cases hk0 : k = 0
    · subst hk0
      exact ⟨by decide, by decide⟩
    · rw [if_neg hk0] at hk
      omega

theorem exactly_once_completion_witness :
    ∃ s', RunJobsF envT 2 0 (trackedCard envT) stateT = some s'
      ∧ fullSum envT s' = trackedCard envT ∧ s'.incr 0 = 1 ∧ s'.doneF 0 = true := by
  obtain ⟨s', hrun⟩ : ∃ s', RunJobsF envT 2 0 (trackedCard envT) stateT = some s' := ⟨_, rfl⟩
  obtain ⟨h1, h2, _⟩ := exactly_once_completion inv_stateT (by decide) hrun
  obtain ⟨h3, h4⟩ := h2 0 (by decide) rfl
  exact ⟨s', hrun, h1, h3, h4⟩

theorem runJobs_contract_blocking_witness :
    ∃ s', RunJobsF envT 2 0 1 stateT = some s'
      ∧ completionSum envT s' 0 = 1 ∧ s'.doneF 0 = true
      ∧ Option.map DrainOutcome.blocked (drainMainLockedF envG 2 stateG) = some true := by
  obtain ⟨s', hrun⟩ : ∃ s', RunJobsF envT 2 0 1 stateT = some s' := ⟨_, rfl⟩
  obtain ⟨⟨h1, h2⟩, hblock⟩ := runJobs_contract_and_drain_blocking inv_stateT (by decide) hrun
  refine ⟨s', hrun, h1, h2 (by decide) 0 (by decide) rfl, ?_⟩
  obtain ⟨s1, hrc⟩ :
      ∃ s1, ResumeCoroutineF envG 2 0 0 { stateG with m_MainThreadJobs := [] } = some s1 :=
    ⟨_, rfl⟩
  have hQ : Option.map (fun s => s.m_MainThreadJobs)
      (ResumeCoroutineF envG 2 0 0 { stateG with m_MainThreadJobs := [] }) = some [1] := rfl
  rw [hrc] at hQ
  have hQ2 : s1.m_MainThreadJobs = [1] := Option.some.inj hQ
  have hne : s1.m_MainThreadJobs ≠ [] := by
    rw [hQ2]
    decide
  have hb := hblock envG 2 0 [] stateG s1 rfl hrc hne
  rw [hb]
  rfl

theorem main_thread_affinity_witness :
    ∃ s', StepsR envC stateC s' ∧ (0, 0) ∈ s'.resumeLog ∧
      (∀ t c, (t, c) ∈ s'.resumeLog → envC.m_IsMainThread c = true → t = 0) := by
  obtain ⟨s', hdr, hmem⟩ :
      ∃ s', drainMainF envC 1 stateC = some s' ∧ (0, 0) ∈ s'.resumeLog := ⟨_, rfl, by decide⟩
  have hsteps : StepsR envC stateC s' :=
    Relation.ReflTransGen.single (StepR.drain 1 stateC s' (by decide) hdr)
  exact ⟨s', hsteps, hmem, main_thread_affinity inv_stateC hsteps⟩

theorem pushJob_displacement_witness :
    ∃ s', PushJobF envB 2 0 0 stateB = some s' ∧ (0, 1) ∈ s'.resumeLog := by
  obtain ⟨s', hrun⟩ : ∃ s', PushJobF envB 2 0 0 stateB = some s' := ⟨_, rfl⟩
  obtain ⟨_, _, hdisp⟩ := pushJob_displacement inv_stateB (by decide) (by decide) (by decide)
    ((occ_stateB 0).trans (by decide)) rfl (by decide) rfl hrun
  exact ⟨s', hrun, hdisp 1 rfl⟩

theorem remote_counter_indexed_by_completer :
    envD.m_OwningThread 0 = 0 ∧
    Option.map (fun s => (s.m_LocalCount 0, s.m_RemoteCount 0, s.m_RemoteCount 1))
      (ResumeCoroutineF envD 1 1 0 stateD) = some (0, 0, 1) := ⟨rfl, rfl⟩

theorem completion_counter_current_thread_witness :
    ∃ s', ResumeCoroutineF envD 1 1 0 stateD = some s'
      ∧ s'.m_RemoteCount 1 = stateD.m_RemoteCount 1 + 1
      ∧ s'.m_LocalCount = stateD.m_LocalCount := by
  obtain ⟨s', hrun⟩ : ∃ s', ResumeCoroutineF envD (0 + 1) 1 0 stateD = some s' := ⟨_, rfl⟩
  obtain ⟨_, h2⟩ := completion_counter_current_thread rfl rfl rfl hrun
  obtain ⟨hr1, _, hr3⟩ := h2 (by decide)
  exact ⟨s', hrun, hr1, hr3⟩

theorem thread0_first_push_targets_self :
    ctorSeedNextJobID = 0 ∧ stateE.g_NextJobID 0 = ctorSeedNextJobID ∧
    Option.map (fun s => s.m_Blocks 0 0) (PushJobF envE 1 0 0 stateE)
      = some (some 0) := ⟨rfl, rfl, rfl⟩

theorem roundRobin_seed_witness :
    jobMainSeedNextJobID 4 2 ≠ 2 ∧
    (∃ s', PushJobF envE 1 0 0 stateE = some s'
      ∧ s'.m_Blocks (stateE.g_NextJobID 0) 0 = some 0
      ∧ s'.g_NextJobID 0 = (stateE.g_NextJobID 0 + 1) % envE.NumThreads) := by
  refine ⟨roundRobin_seed_amended.2.1 4 2 (by decide) (by decide) (by decide), ?_⟩
  exact roundRobin_seed_amended.2.2 envE 0 0 0 stateE (by decide) rfl

theorem empty_wait_scans_matrix :
    trackedCard envE = 0 ∧
    Option.map (fun s => s.peeks) (RunJobsF envE 1 0 0 stateE) = some 2 := ⟨rfl, rfl⟩

theorem empty_wait_witness :
    ∃ s', RunJobsF envE 1 0 0 stateE = some s'
      ∧ s'.peeks = stateE.peeks + envE.NumThreads ∧ completionSum envE s' 0 = 0 :=
  empty_wait_single_pass (fun i => rfl) (fun _ => rfl) (by decide)

theorem pushJob_single_thread_no_assert :
    pushJobAssertCheck 1 false = PushOutcome.proceeds ∧
    pushJobAssertCheck 1 false ≠ PushOutcome.fatalAssert := ⟨rfl, by decide⟩

theorem push_assert_witness :
    pushJobAssertCheck 2 false = PushOutcome.fatalAssert ∧
    pushMainThreadJobAssertCheck false = PushOutcome.fatalAssert ∧
    pushJobAssertCheck 1 false = PushOutcome.proceeds :=
  push_assert_amended (by decide)

/-- C3 counterexample: in a pool where task 1 is main-thread-affine,
draining a queue holding task 0 — whose promise registers task 1 as
its continuation — makes the drain's ResumeCoroutine call
PushMainThreadJob.  In the source that call locks m_MainThreadJobMutex
(JobManagerImpl.cpp line 101) while the drain loop of RunJobs still
holds that same non-recursive mutex (line 113), so thread 0 blocks on
the re-entered mutex: the lock-faithful drain reports blocksOnMutex,
refuting the claim that the calling thread never blocks while
waiting. -/
theorem runJobs_drain_relocks_mutex :
    envG.m_IsMainThread 1 = true ∧
    Option.map DrainOutcome.blocked (drainMainLockedF envG 2 stateG) = some true := ⟨rfl, rfl⟩

theorem createJobManager_outcomes_witness :
    CreateJobManagerFullF 4 false (some 1) (none, 0) = ((none, 0), some false) ∧
    CreateJobManagerFullF 4 false (some 2) (none, 5) = ((none, 5), none) ∧
    CreateJobManagerFullF 4 false none (none, 0) = ((some (), 1), some true) :=
  ⟨createJobManager_outcomes.2.2.2.1 4 0 (by decide),
   createJobManager_outcomes.2.2.2.2.1 4 2 5 (by decide) (by decide),
   createJobManager_outcomes.2.1 4 0⟩

/-- C9 counterexample: with NumThreads = 4 and the std::thread
creation of worker 2 throwing, the spawn loop has already emplaced
worker 1 into m_Threads, so the constructor's unwind destroys a
joinable std::thread and the process std::terminates
(JobManagerImpl.cpp lines 43-46): CreateJobManager neither returns
true nor returns false — it does not return at all — refuting the
claim that a throwing construction returns failure. -/
theorem createJobManager_terminate_path :
    JobManagerCtorF 4 (some 2) = CtorOutcome.terminated 1 ∧
    (CreateJobManagerFullF 4 false (some 2) (none, 0)).2 = none ∧
    (CreateJobManagerFullF 4 false (some 2) (none, 0)).2 ≠ some false ∧
    (CreateJobManagerFullF 4 false (some 2) (none, 0)).2 ≠ some true := by
  refine ⟨rfl, rfl, ?_, ?_⟩ <;> decide

end YT
